import Mathlib

/-!
# Minglebot import/normalization engine — verification of the specification

Shallow embedding, in Lean 4, of the core of the `minglebot` repository:
the dedupe/upsert merge engine (`src/core/dedupe.ts`, shipped inside
`src/core/layout.ts` in this snapshot), the timestamp helpers
(`src/lib/time.ts`), the identity generator (`src/lib/id.ts`), the provider
role normalizers (`src/providers/{claude,chatgpt,gemini,cursor}.ts`) and the
job-lifecycle orchestration of `src/core/import-run.ts`.

Modelling conventions, chosen to match the TypeScript runtime behaviour:

* ISO-8601 timestamp strings are represented by their epoch value
  (`new Date(s).getTime()`) as a `Nat`; `undefined` and the empty string —
  both falsy in the comparisons the source performs — are `none`.  Every
  timestamp the system itself produces comes from `toIsoOrUndefined` and is
  either a valid ISO string or `undefined`, so this abstraction is exact on
  the system's own data.
* Optional string fields (`string | undefined`) are `Option String`; the
  source tests them with JS truthiness, so `none` and `some ""` are both
  "falsy" and the helpers below spell that out.  The nullable `url` field
  (`string | null`) is also `Option String`: `??` treats `null` and
  `undefined` alike, and the extractors always emit `null`, never
  `undefined`, for absent urls.
* A JS `Map` is an insertion-ordered association list: `set` of an existing
  key updates the value in place, `set` of a fresh key appends, and
  iteration (`[...map.values()]`) follows insertion order.
* `JSON.stringify` equality of two records that were cloned from one
  another by object spread (same key set, same key order) is field-wise
  equality; `stableSignature` is therefore modelled as the record with its
  provenance fields blanked, compared with decidable equality.
-/

namespace Minglebot

/-! ## JS primitives -/

/-- JS truthiness of an optional string: `undefined` and `""` are falsy. -/
def strFalsy : Option String → Bool
  | none => true
  | some s => s.isEmpty

/-- JS `a || b` on optional strings. -/
def jsOrStr (a b : Option String) : Option String :=
  if strFalsy a then b else a

/-- JS `a || b` on optional timestamps (an ISO string is truthy iff non-empty,
and empty strings are modelled as `none`). -/
def jsOrTime (a b : Option Nat) : Option Nat :=
  match a with
  | some x => some x
  | none => b

/-- JS `a ?? b` on nullable/optional values. -/
def jsCoalesce {α : Type} (a b : Option α) : Option α :=
  match a with
  | some x => some x
  | none => b

/-- JS `a || b` on plain strings (only `""` is falsy). -/
def jsOrPlain (a b : String) : String :=
  if a.isEmpty then b else a

/-- JS `String.prototype.trim`, modelled on the character list (whitespace
per `Char.isWhitespace`). -/
def jsTrim (s : String) : String :=
  String.mk (((s.data.dropWhile Char.isWhitespace).reverse.dropWhile
    Char.isWhitespace).reverse)

/-- JS `String.prototype.toLowerCase`, restricted to ASCII letters (the
only characters the role synonym tables distinguish). -/
def jsToLower (s : String) : String :=
  String.mk (s.data.map (fun c =>
    if 'A' ≤ c ∧ c ≤ 'Z' then Char.ofNat (c.toNat + 32) else c))

/-- `[...new Set(l)]`: the distinct elements of `l` in first-occurrence
order (later duplicates of the head are filtered out of the de-duplicated
tail). -/
def jsSetOfList {α : Type} [DecidableEq α] : List α → List α
  | [] => []
  | a :: l => a :: (jsSetOfList l).filter (fun b => b ≠ a)

/-! ## `src/lib/time.ts` -/

/-- `isIsoDateNewer(next, prev)`: `false` when `next` is falsy, `true` when
`prev` is falsy, otherwise strict comparison of the epoch values. -/
def isIsoDateNewer (next prev : Option Nat) : Bool :=
  match next with
  | none => false
  | some n =>
    match prev with
    | none => true
    | some p => p < n

/-! ## Canonical records (`src/types/schema.ts`)

The three canonical entities carry their data fields plus the shared
provenance fields `source_job_id`, `source_path`, `first_seen_job_id`,
`last_seen_job_id`, `seen_in_jobs`.  The `model` field of messages is not
listed in the snapshot of the interface but is read and written by the
Claude/Gemini extractors and by `mergeMessage`, so it is part of the runtime
record (and of its JSON signature) and is included here. -/

structure CanonicalConversation where
  id : String
  provider : String
  provider_conversation_id : String
  title : Option String
  created_at : Option Nat
  updated_at : Option Nat
  source_job_id : String
  source_path : Option String
  first_seen_job_id : Option String
  last_seen_job_id : Option String
  seen_in_jobs : Option (List String)
deriving DecidableEq, Repr

structure CanonicalMessage where
  id : String
  conversation_id : String
  provider : String
  provider_message_id : Option String
  model : Option String
  role : String
  text : String
  created_at : Option Nat
  attachment_ids : Option (List String)
  source_job_id : String
  source_path : Option String
  first_seen_job_id : Option String
  last_seen_job_id : Option String
  seen_in_jobs : Option (List String)
deriving DecidableEq, Repr

structure CanonicalAttachment where
  id : String
  provider : String
  provider_attachment_id : Option String
  message_id : String
  kind : Option String
  mime_type : Option String
  size_bytes : Option Nat
  storage : String
  blob_sha256 : Option String
  url : Option String
  status : String
  local_relpath : Option String
  source_job_id : String
  source_path : Option String
  first_seen_job_id : Option String
  last_seen_job_id : Option String
  seen_in_jobs : Option (List String)
deriving DecidableEq, Repr

/-! ## `src/core/dedupe.ts` — merge helpers -/

structure UpsertStats where
  new : Nat
  updated : Nat
  unchanged : Nat
  failed : Nat
deriving DecidableEq, Repr

/-- Total number of incoming rows accounted for by a statistics record. -/
def statsTotal (s : UpsertStats) : Nat :=
  s.new + s.updated + s.unchanged + s.failed

/-- `withProvenance` for conversations: `first_seen_job_id` keeps its value
when truthy (else the current job), `last_seen_job_id` becomes the current
job, `seen_in_jobs` becomes `[...new Set([...(seen || []), jobId])]`. -/
def withProvenanceConv (item : CanonicalConversation) (jobId : String) :
    CanonicalConversation :=
  { item with
    first_seen_job_id :=
      if strFalsy item.first_seen_job_id then some jobId else item.first_seen_job_id
    last_seen_job_id := some jobId
    seen_in_jobs := some (jsSetOfList ((item.seen_in_jobs.getD []) ++ [jobId])) }

def withProvenanceMsg (item : CanonicalMessage) (jobId : String) :
    CanonicalMessage :=
  { item with
    first_seen_job_id :=
      if strFalsy item.first_seen_job_id then some jobId else item.first_seen_job_id
    last_seen_job_id := some jobId
    seen_in_jobs := some (jsSetOfList ((item.seen_in_jobs.getD []) ++ [jobId])) }

def withProvenanceAtt (item : CanonicalAttachment) (jobId : String) :
    CanonicalAttachment :=
  { item with
    first_seen_job_id :=
      if strFalsy item.first_seen_job_id then some jobId else item.first_seen_job_id
    last_seen_job_id := some jobId
    seen_in_jobs := some (jsSetOfList ((item.seen_in_jobs.getD []) ++ [jobId])) }

/-- `stableSignature`: the record with `source_job_id`, `source_path`,
`first_seen_job_id`, `last_seen_job_id` and `seen_in_jobs` deleted; two
records built from one another by object spread have equal
`JSON.stringify` signatures iff the remaining fields are equal. -/
def stableSignatureConv (c : CanonicalConversation) : CanonicalConversation :=
  { c with
    source_job_id := ""
    source_path := none
    first_seen_job_id := none
    last_seen_job_id := none
    seen_in_jobs := none }

def stableSignatureMsg (m : CanonicalMessage) : CanonicalMessage :=
  { m with
    source_job_id := ""
    source_path := none
    first_seen_job_id := none
    last_seen_job_id := none
    seen_in_jobs := none }

def stableSignatureAtt (a : CanonicalAttachment) : CanonicalAttachment :=
  { a with
    source_job_id := ""
    source_path := none
    first_seen_job_id := none
    last_seen_job_id := none
    seen_in_jobs := none }

/-- `mergeText(prev, next)`: falsy `next` keeps `prev`, falsy `prev` takes
`next`, otherwise the longer value with ties going to `next`. -/
def mergeText (prev next : Option String) : Option String :=
  if strFalsy next then prev
  else if strFalsy prev then next
  else if (prev.getD "").length ≤ (next.getD "").length then next else prev

/-- `mergeOptional(prev, next)`: `next` wins only when it is a string whose
trim is non-empty. -/
def mergeOptional (prev next : Option String) : Option String :=
  match next with
  | some s => if (jsTrim s).isEmpty then prev else some s
  | none => prev

/-- `mergeArray(prev, next)`: the de-duplicated concatenation, or
`undefined` when it is empty. -/
def mergeArray (prev next : Option (List String)) : Option (List String) :=
  let combined := jsSetOfList ((prev.getD []) ++ (next.getD []))
  if combined.isEmpty then none else some combined

def mergeConversation (prev next : CanonicalConversation) : CanonicalConversation :=
  { prev with
    source_job_id := next.source_job_id
    source_path := jsOrStr next.source_path prev.source_path
    title := mergeText prev.title next.title
    created_at :=
      if isIsoDateNewer prev.created_at next.created_at then prev.created_at
      else jsOrTime next.created_at prev.created_at
    updated_at :=
      if isIsoDateNewer next.updated_at prev.updated_at then next.updated_at
      else prev.updated_at }

def mergeMessage (prev next : CanonicalMessage) : CanonicalMessage :=
  { prev with
    source_job_id := next.source_job_id
    source_path := jsOrStr next.source_path prev.source_path
    provider_message_id := mergeOptional prev.provider_message_id next.provider_message_id
    model := mergeOptional prev.model next.model
    role := jsOrPlain next.role prev.role
    text := (mergeText (some prev.text) (some next.text)).getD ""
    created_at :=
      if isIsoDateNewer prev.created_at next.created_at then prev.created_at
      else jsOrTime next.created_at prev.created_at
    attachment_ids := mergeArray prev.attachment_ids next.attachment_ids }

def mergeAttachment (prev next : CanonicalAttachment) : CanonicalAttachment :=
  { prev with
    source_job_id := next.source_job_id
    source_path := jsOrStr next.source_path prev.source_path
    provider_attachment_id := mergeOptional prev.provider_attachment_id next.provider_attachment_id
    kind := mergeOptional prev.kind next.kind
    mime_type := mergeOptional prev.mime_type next.mime_type
    size_bytes := jsCoalesce next.size_bytes prev.size_bytes
    storage := jsOrPlain next.storage prev.storage
    blob_sha256 := mergeOptional prev.blob_sha256 next.blob_sha256
    url := jsCoalesce next.url prev.url
    status := jsOrPlain next.status prev.status
    local_relpath := mergeOptional prev.local_relpath next.local_relpath }

/-! ## `src/core/dedupe.ts` — the upsert loop

The three upsert functions share one loop shape; `upsertLoop` captures it
once, parameterized by the per-entity required-key check, merge function,
provenance stamp and signature, and each concrete upsert instantiates it
with exactly the ingredients of its TypeScript counterpart. -/

/-- `map.get(k)` on an insertion-ordered association list: the value of the
first (and, for maps built with `mapSet`, only) pair with key `k`. -/
def mapGet {α : Type} : List (String × α) → String → Option α
  | [], _ => none
  | p :: m, k => if p.1 = k then some p.2 else mapGet m k

/-- `map.has(k)`. -/
def hasKey {α : Type} : List (String × α) → String → Bool
  | [], _ => false
  | p :: m, k => p.1 = k || hasKey m k

/-- `map.set(k, v)`: update in place when the key exists, else append. -/
def mapSet {α : Type} (m : List (String × α)) (k : String) (v : α) :
    List (String × α) :=
  if hasKey m k then
    m.map (fun p => if p.1 = k then (k, v) else p)
  else m ++ [(k, v)]

/-- `new Map(existing.map(row => [row.id, row]))`. -/
def buildIndex {ρ : Type} (getId : ρ → String) (existing : List ρ) :
    List (String × ρ) :=
  existing.foldl (fun m row => mapSet m (getId row) row) []

/-- One iteration of the `for (const raw of incoming)` loop. -/
def upsertStep {ρ σ : Type} [DecidableEq σ]
    (requiredOk : ρ → Bool) (getId : ρ → String) (withProv : ρ → String → ρ)
    (merge : ρ → ρ → ρ) (sig : ρ → σ) (jobId : String)
    (st : List (String × ρ) × UpsertStats) (raw : ρ) :
    List (String × ρ) × UpsertStats :=
  let index := st.1
  let stats := st.2
  if requiredOk raw then
    let next := withProv raw jobId
    match mapGet index (getId next) with
    | none =>
      (mapSet index (getId next) next, { stats with new := stats.new + 1 })
    | some prev =>
      let merged := withProv (merge prev next) jobId
      if sig prev = sig merged then
        (mapSet index (getId next) merged,
          { stats with unchanged := stats.unchanged + 1 })
      else
        (mapSet index (getId next) merged,
          { stats with updated := stats.updated + 1 })
  else
    (index, { stats with failed := stats.failed + 1 })

def upsertLoop {ρ σ : Type} [DecidableEq σ]
    (requiredOk : ρ → Bool) (getId : ρ → String) (withProv : ρ → String → ρ)
    (merge : ρ → ρ → ρ) (sig : ρ → σ)
    (existing incoming : List ρ) (jobId : String) :
    List ρ × UpsertStats :=
  let out := incoming.foldl
    (upsertStep requiredOk getId withProv merge sig jobId)
    (buildIndex getId existing, ⟨0, 0, 0, 0⟩)
  (out.1.map (fun p => p.2), out.2)

/-- `upsertConversations`: required key is `id`. -/
def upsertConversations (existing incoming : List CanonicalConversation)
    (jobId : String) : List CanonicalConversation × UpsertStats :=
  upsertLoop (fun r => !r.id.isEmpty) (fun r => r.id)
    withProvenanceConv mergeConversation stableSignatureConv
    existing incoming jobId

/-- `upsertMessages`: required keys are `id` and `conversation_id`. -/
def upsertMessages (existing incoming : List CanonicalMessage)
    (jobId : String) : List CanonicalMessage × UpsertStats :=
  upsertLoop (fun r => !r.id.isEmpty && !r.conversation_id.isEmpty) (fun r => r.id)
    withProvenanceMsg mergeMessage stableSignatureMsg
    existing incoming jobId

/-- `upsertAttachments`: required keys are `id` and `message_id`. -/
def upsertAttachments (existing incoming : List CanonicalAttachment)
    (jobId : String) : List CanonicalAttachment × UpsertStats :=
  upsertLoop (fun r => !r.id.isEmpty && !r.message_id.isEmpty) (fun r => r.id)
    withProvenanceAtt mergeAttachment stableSignatureAtt
    existing incoming jobId

/-- `mergeArray` maps a value to itself exactly when the value is absent or a
non-empty duplicate-free list; otherwise merging a row with an identical copy
of itself changes the field (an empty array becomes `undefined`, duplicates
are collapsed). -/
def mergeArrayStable : Option (List String) → Prop
  | none => True
  | some l => l ≠ [] ∧ l.Nodup

instance (o : Option (List String)) : Decidable (mergeArrayStable o) :=
  match o with
  | none => .isTrue trivial
  | some _ => inferInstanceAs (Decidable (_ ∧ _))

/-! ## `src/lib/id.ts` — the identity generator

`sha256` (`src/lib/hash.ts`) delegates to the platform's crypto primitive;
it enters the model as an explicit function parameter, so every statement
below holds for the real hash in particular. -/

/-- `safe(value)`: every character outside `[a-zA-Z0-9_-]` becomes `_`
(the regex `replace` rewrites the string character by character;
`Char.isAlphanum` is exactly ASCII `[a-zA-Z0-9]`). -/
def safe (value : String) : String :=
  String.mk (value.data.map
    (fun c => if c.isAlphanum || c = '_' || c = '-' then c else '_'))

/-- `canonicalId(prefix, provider, rawId?, fallback?)` from `src/lib/id.ts`,
with the hash function passed explicitly.  A raw id that is present and has
a non-empty trim is sanitized into the id; otherwise the (`"missing"`
defaulted) fallback seed is hashed and truncated to 20 hex characters. -/
def canonicalId (hash : String → String) (idKind provider : String)
    (rawId fallback : Option String) : String :=
  if (match rawId with
      | some r => !r.isEmpty && !(jsTrim r).isEmpty
      | none => false) then
    "mb_" ++ provider ++ "_" ++ idKind ++ "_" ++ safe (rawId.getD "")
  else
    "mb_" ++ provider ++ "_" ++ idKind ++ "_" ++
      (hash (if strFalsy fallback then "missing" else fallback.getD "")).take 20

/-! ## Provider role extraction

Each extractor reads a free-form role from a raw message record through a
`||` chain of candidate fields (`String(...)` coercion; all-falsy defaults
to `"unknown"`).  Gemini and Cursor additionally pass the value through a
normalizer that maps recognized synonyms onto the canonical vocabulary but
returns every other non-empty value verbatim; ChatGPT and Claude emit the
raw value as is. -/

/-- The role-bearing fields of a raw provider message record
(`msg.role`, `msg.sender`, `msg.author?.role`, `msg.author?.type`,
`msg.from`), each `none` or `some ""` when falsy. -/
structure RoleSourceFields where
  role : Option String
  sender : Option String
  authorRole : Option String
  authorType : Option String
  fromField : Option String
deriving DecidableEq, Repr

/-- The value of a JS `a || b || c || ...` chain over optional strings. -/
def firstTruthy : List (Option String) → Option String
  | [] => none
  | a :: l => if strFalsy a then firstTruthy l else a

/-- `messageRole` of `src/providers/claude.ts`:
`String(msg.role || msg.sender || author?.role || author?.type || msg.from || "unknown")`. -/
def claudeMessageRole (m : RoleSourceFields) : String :=
  (firstTruthy [m.role, m.sender, m.authorRole, m.authorType, m.fromField]).getD "unknown"

/-- The role computed at `src/providers/chatgpt.ts:98`:
`String(getObject(msgObj.author)?.role || "unknown")`. -/
def chatgptMessageRole (authorRole : Option String) : String :=
  (firstTruthy [authorRole]).getD "unknown"

/-- `normalizeGeminiRole` of `src/providers/gemini.ts`. -/
def normalizeGeminiRole (value : String) : String :=
  let role := jsToLower (jsTrim value)
  if ["model", "assistant", "ai", "bot", "gemini"].contains role then "assistant"
  else if ["user", "human", "prompt", "customer", "you"].contains role then "user"
  else if role = "system" then "system"
  else if role.isEmpty then "unknown" else role

/-- `geminiRole` of `src/providers/gemini.ts`. -/
def geminiRole (m : RoleSourceFields) : String :=
  normalizeGeminiRole
    ((firstTruthy [m.role, m.sender, m.authorRole, m.authorType, m.fromField]).getD "unknown")

/-- `normalizeCursorRole` of `src/providers/cursor.ts`. -/
def normalizeCursorRole (value : String) : String :=
  let role := jsToLower (jsTrim value)
  if ["assistant", "ai", "cursor", "model", "bot"].contains role then "assistant"
  else if ["user", "human", "you", "me"].contains role then "user"
  else if role = "system" then "system"
  else if role.isEmpty then "unknown" else role

/-- `cursorMessageRole` of `src/providers/cursor.ts`:
`normalizeCursorRole(String(value.role || value.sender || value.from || author?.role || author?.type || "unknown"))`. -/
def cursorMessageRole (m : RoleSourceFields) : String :=
  normalizeCursorRole
    ((firstTruthy [m.role, m.sender, m.fromField, m.authorRole, m.authorType]).getD "unknown")

/-- The normalized role vocabulary named by the specification. -/
def normalizedRoleVocab : List String := ["user", "assistant", "system", "unknown"]

/-! ## `src/core/import-run.ts` — the job lifecycle

`runImport` persists the job record after every stage transition, inside a
single `try`/`catch` whose handler persists a final `FAILED` record carrying
the error message.  The model below abstracts each fallible stage action
(package existence check, archive extraction, provider parsing, blob
materialization, dataset read/merge/write, index rebuild) as an
`Except String Unit` outcome supplied from outside; the trace collects the
successive persisted `(status, errors)` snapshots. -/

inductive JobStatus where
  | packageSelected
  | packageValidated
  | extractedToRaw
  | parsedProviderRecords
  | mappedCanonicalRecords
  | dedupedUpserted
  | normalized
  | failed
deriving DecidableEq, Repr

/-- The spec's strict stage order (without the error state). -/
def statusChain : List JobStatus :=
  [.packageSelected, .packageValidated, .extractedToRaw, .parsedProviderRecords,
   .mappedCanonicalRecords, .dedupedUpserted, .normalized]

/-- The statuses persisted after each of the six fallible stage actions. -/
def stageStatuses : List JobStatus :=
  [.packageValidated, .extractedToRaw, .parsedProviderRecords,
   .mappedCanonicalRecords, .dedupedUpserted, .normalized]

/-- One persisted snapshot of the job record (status plus errors list). -/
structure PersistedRun where
  status : JobStatus
  errors : List String
deriving DecidableEq, Repr

/-- Runs the staged actions in order: each success persists the stage's
status with an empty errors list and continues; the first failure persists a
single final `FAILED` record whose errors list holds the error message, and
nothing runs afterwards (the `catch` block returns). -/
def runStages : List (JobStatus × Except String Unit) → List PersistedRun
  | [] => []
  | (st, Except.ok _) :: rest => ⟨st, []⟩ :: runStages rest
  | (_, Except.error e) :: _ => [⟨JobStatus.failed, [e]⟩]

/-- The sequence of job records persisted by one `runImport` execution whose
fallible stage actions produce `outcomes`: `PACKAGE_SELECTED` is persisted
unconditionally before the `try` block, then the staged actions run. -/
def runImportStatusTrace (outcomes : List (Except String Unit)) : List PersistedRun :=
  ⟨JobStatus.packageSelected, []⟩ :: runStages (stageStatuses.zip outcomes)

/-! ## Concrete fixture rows

Base records used by the closed witnesses and counterexamples below,
mirroring the fixtures of `test/dedupe.test.ts`. -/

def sampleConversation : CanonicalConversation :=
  { id := "mb_chatgpt_cnv_1", provider := "chatgpt",
    provider_conversation_id := "1", title := none, created_at := none,
    updated_at := none, source_job_id := "job_1", source_path := none,
    first_seen_job_id := none, last_seen_job_id := none, seen_in_jobs := none }

def sampleMessage : CanonicalMessage :=
  { id := "mb_chatgpt_msg_1", conversation_id := "mb_chatgpt_cnv_1",
    provider := "chatgpt", provider_message_id := none, model := none,
    role := "assistant", text := "hello", created_at := none,
    attachment_ids := none, source_job_id := "job_1", source_path := none,
    first_seen_job_id := none, last_seen_job_id := none, seen_in_jobs := none }

def sampleAttachment : CanonicalAttachment :=
  { id := "mb_chatgpt_att_1", provider := "chatgpt",
    provider_attachment_id := none, message_id := "mb_chatgpt_msg_1",
    kind := none, mime_type := none, size_bytes := none, storage := "missing",
    blob_sha256 := none, url := none, status := "missing",
    local_relpath := none, source_job_id := "job_1", source_path := none,
    first_seen_job_id := none, last_seen_job_id := none, seen_in_jobs := none }

/-! ## Association-list map lemmas -/

theorem hasKey_append {α : Type} (m₁ m₂ : List (String × α)) (k : String) :
    hasKey (m₁ ++ m₂) k = (hasKey m₁ k || hasKey m₂ k) := by
  induction m₁ with
  | nil => simp [hasKey]
  | cons p m ih => simp [hasKey, ih, Bool.or_assoc]

theorem mapGet_eq_none_of_hasKey_eq_false {α : Type} {m : List (String × α)}
    {k : String} (h : hasKey m k = false) : mapGet m k = none := by
  induction m with
  | nil => rfl
  | cons p m ih =>
    simp only [hasKey, Bool.or_eq_false_iff, decide_eq_false_iff_not] at h
    simp [mapGet, h.1, ih h.2]

theorem exists_mapGet_of_hasKey {α : Type} {m : List (String × α)} {k : String}
    (h : hasKey m k = true) : ∃ v, mapGet m k = some v := by
  induction m with
  | nil => simp [hasKey] at h
  | cons p m ih =>
    by_cases hp : p.1 = k
    · exact ⟨p.2, by simp [mapGet, hp]⟩
    · simp only [hasKey, Bool.or_eq_true, decide_eq_true_eq] at h
      rcases h with h | h
      · exact absurd h hp
      · obtain ⟨v, hv⟩ := ih h
        exact ⟨v, by simp [mapGet, hp, hv]⟩

theorem mapGet_append_of_none {α : Type} {m₁ : List (String × α)} {k : String}
    (m₂ : List (String × α)) (h : mapGet m₁ k = none) :
    mapGet (m₁ ++ m₂) k = mapGet m₂ k := by
  induction m₁ with
  | nil => rfl
  | cons p m ih =>
    by_cases hp : p.1 = k
    · simp [mapGet, hp] at h
    · simp only [mapGet, hp, if_false, List.cons_append] at h ⊢
      simp [mapGet, hp, ih h]

theorem mapGet_append_of_some {α : Type} {m₁ : List (String × α)} {k : String}
    {v : α} (m₂ : List (String × α)) (h : mapGet m₁ k = some v) :
    mapGet (m₁ ++ m₂) k = some v := by
  induction m₁ with
  | nil => simp [mapGet] at h
  | cons p m ih =>
    by_cases hp : p.1 = k
    · simp only [mapGet, hp, if_true] at h ⊢
      simpa using h
    · simp only [mapGet, hp, if_false, List.cons_append] at h ⊢
      simp [mapGet, hp, ih h]

theorem mapGet_replace_self {α : Type} {m : List (String × α)} {k : String}
    (v : α) (h : hasKey m k = true) :
    mapGet (m.map (fun p => if p.1 = k then (k, v) else p)) k = some v := by
  induction m with
  | nil => simp [hasKey] at h
  | cons p m ih =>
    by_cases hp : p.1 = k
    · simp [mapGet, hp]
    · simp only [hasKey, Bool.or_eq_true, decide_eq_true_eq] at h
      rcases h with h | h
      · exact absurd h hp
      · simp [mapGet, hp, ih h]

theorem mapGet_replace_ne {α : Type} {m : List (String × α)} {k k' : String}
    (v : α) (h : k ≠ k') :
    mapGet (m.map (fun p => if p.1 = k then (k, v) else p)) k' = mapGet m k' := by
  induction m with
  | nil => rfl
  | cons p m ih =>
    by_cases hp : p.1 = k
    · have : ¬(k = k') := h
      simp [mapGet, hp, this, ih]
    · simp [mapGet, hp, ih]

theorem mapGet_mapSet_self {α : Type} (m : List (String × α)) (k : String)
    (v : α) : mapGet (mapSet m k v) k = some v := by
  unfold mapSet
  by_cases h : hasKey m k
  · simp [h, mapGet_replace_self v h]
  · simp only [h, if_false, Bool.false_eq_true]
    rw [mapGet_append_of_none _ (mapGet_eq_none_of_hasKey_eq_false (by simpa using h))]
    simp [mapGet]

theorem mapGet_mapSet_ne {α : Type} (m : List (String × α)) {k k' : String}
    (v : α) (h : k ≠ k') : mapGet (mapSet m k v) k' = mapGet m k' := by
  unfold mapSet
  by_cases hk : hasKey m k
  · simp [hk, mapGet_replace_ne v h]
  · simp only [hk, if_false, Bool.false_eq_true]
    cases hv : mapGet m k' with
    | none =>
      rw [mapGet_append_of_none _ hv]
      simp [mapGet, h]
    | some w => rw [mapGet_append_of_some _ hv]

theorem length_mapSet {α : Type} (m : List (String × α)) (k : String) (v : α) :
    m.length ≤ (mapSet m k v).length := by
  unfold mapSet
  by_cases h : hasKey m k
  · simp [h]
  · simp [h]

theorem hasKey_replace {α : Type} (m : List (String × α)) (k k' : String)
    (v : α) :
    hasKey (m.map (fun p => if p.1 = k then (k, v) else p)) k' = hasKey m k' := by
  induction m with
  | nil => rfl
  | cons p m ih =>
    by_cases hp : p.1 = k
    · subst hp
      simp [hasKey, ih]
    · simp [hasKey, hp, ih]

theorem hasKey_mapSet {α : Type} (m : List (String × α)) (k k' : String)
    (v : α) :
    hasKey (mapSet m k v) k' = (hasKey m k' || decide (k = k')) := by
  unfold mapSet
  by_cases h : hasKey m k
  · rw [if_pos h, hasKey_replace]
    by_cases he : k = k'
    · subst he
      simp [h]
    · simp [he]
  · rw [if_neg h, hasKey_append]
    simp [hasKey]

theorem mapSet_of_hasKey_eq_false {α : Type} {m : List (String × α)}
    {k : String} (v : α) (h : hasKey m k = false) :
    mapSet m k v = m ++ [(k, v)] := by
  simp [mapSet, h]

theorem mapSet_singleton_self {α : Type} (k : String) (p : String × α)
    (v : α) (h : p.1 = k) : mapSet [p] k v = [(k, v)] := by
  simp [mapSet, hasKey, h]

theorem hasKey_of_mapGet_eq_some {α : Type} {m : List (String × α)}
    {k : String} {v : α} (h : mapGet m k = some v) : hasKey m k = true := by
  induction m with
  | nil => simp [mapGet] at h
  | cons p m ih =>
    by_cases hp : p.1 = k
    · simp [hasKey, hp]
    · simp only [mapGet, hp, if_false] at h
      simp [hasKey, ih h]

theorem mem_of_mapGet_eq_some {α : Type} {m : List (String × α)} {k : String}
    {v : α} (h : mapGet m k = some v) : (k, v) ∈ m := by
  induction m with
  | nil => simp [mapGet] at h
  | cons p m ih =>
    by_cases hp : p.1 = k
    · simp only [mapGet, hp, if_true, Option.some.injEq] at h
      obtain ⟨a, b⟩ := p
      dsimp only at hp h
      subst hp
      subst h
      exact List.mem_cons_self _ _
    · simp only [mapGet, hp, if_false] at h
      exact List.mem_cons_of_mem _ (ih h)

/-! ## `jsSetOfList` lemmas -/

theorem mem_jsSetOfList {α : Type} [DecidableEq α] (a : α) :
    ∀ l : List α, a ∈ jsSetOfList l ↔ a ∈ l := by
  intro l
  induction l with
  | nil => simp [jsSetOfList]
  | cons b t ih =>
    simp only [jsSetOfList, List.mem_cons, List.mem_filter, ih,
      decide_eq_true_eq]
    constructor
    · rintro (h | ⟨h, _⟩)
      · exact Or.inl h
      · exact Or.inr h
    · rintro (h | h)
      · exact Or.inl h
      · by_cases hb : a = b
        · exact Or.inl hb
        · exact Or.inr ⟨h, hb⟩

theorem jsSetOfList_eq_self_of_nodup {α : Type} [DecidableEq α] :
    ∀ {l : List α}, l.Nodup → jsSetOfList l = l := by
  intro l
  induction l with
  | nil => intro _; rfl
  | cons a t ih =>
    intro h
    rw [List.nodup_cons] at h
    rw [jsSetOfList, ih h.2, List.filter_eq_self.mpr]
    intro b hb
    simp only [decide_eq_true_eq]
    intro hba
    exact h.1 (hba ▸ hb)

/-- Dropping an occurrence of `a` from the middle of the de-duplicated list
makes no difference once all copies of `a` are filtered away. -/
theorem jsSetOfList_filter_ne {α : Type} [DecidableEq α] (a : α) :
    ∀ (l₁ l₂ : List α),
    (jsSetOfList (l₁ ++ a :: l₂)).filter (fun b => b ≠ a)
      = (jsSetOfList (l₁ ++ l₂)).filter (fun b => b ≠ a) := by
  intro l₁
  induction l₁ with
  | nil =>
    intro l₂
    show (jsSetOfList (a :: l₂)).filter (fun b => b ≠ a)
      = (jsSetOfList l₂).filter (fun b => b ≠ a)
    rw [jsSetOfList, List.filter_cons]
    have hfalse : decide (a ≠ a) = false := by simp
    rw [hfalse]
    simp only [Bool.false_eq_true, if_false, List.filter_filter]
    simp
  | cons c t ih =>
    intro l₂
    show (jsSetOfList (c :: (t ++ a :: l₂))).filter (fun b => b ≠ a)
      = (jsSetOfList (c :: (t ++ l₂))).filter (fun b => b ≠ a)
    rw [jsSetOfList, jsSetOfList, List.filter_cons, List.filter_cons]
    have htail : ((jsSetOfList (t ++ a :: l₂)).filter
          (fun b => b ≠ c)).filter (fun b => b ≠ a)
        = ((jsSetOfList (t ++ l₂)).filter (fun b => b ≠ c)).filter
            (fun b => b ≠ a) := by
      rw [List.filter_comm, ih l₂, List.filter_comm]
    rw [htail]

theorem jsSetOfList_append_self {α : Type} [DecidableEq α] :
    ∀ l : List α, jsSetOfList (l ++ l) = jsSetOfList l := by
  intro l
  induction l with
  | nil => rfl
  | cons a t ih =>
    show jsSetOfList (a :: (t ++ a :: t)) = jsSetOfList (a :: t)
    rw [jsSetOfList, jsSetOfList, jsSetOfList_filter_ne, ih]

theorem jsSetOfList_append_self_of_nodup {α : Type} [DecidableEq α]
    {l : List α} (h : l.Nodup) : jsSetOfList (l ++ l) = l := by
  rw [jsSetOfList_append_self, jsSetOfList_eq_self_of_nodup h]

theorem mem_jsSetOfList_append_right {α : Type} [DecidableEq α] (a : α)
    (l : List α) : a ∈ jsSetOfList (l ++ [a]) := by
  rw [mem_jsSetOfList]
  simp

/-! ## Merge self-identity lemmas

Merging a row with a second row whose data fields are identical leaves
every data field unchanged (for messages, provided the `attachment_ids`
field is `mergeArray`-stable). -/

theorem jsOrStr_self (a : Option String) : jsOrStr a a = a := by
  unfold jsOrStr
  split <;> rfl

theorem jsOrTime_self (a : Option Nat) : jsOrTime a a = a := by
  cases a <;> rfl

theorem jsCoalesce_self {α : Type} (a : Option α) : jsCoalesce a a = a := by
  cases a <;> rfl

theorem jsOrPlain_self (a : String) : jsOrPlain a a = a := by
  unfold jsOrPlain
  split <;> rfl

theorem mergeText_self (t : Option String) : mergeText t t = t := by
  cases t with
  | none => rfl
  | some s =>
    by_cases h : s.isEmpty
    · simp [mergeText, strFalsy, h]
    · simp [mergeText, strFalsy, h]

theorem mergeOptional_self (t : Option String) : mergeOptional t t = t := by
  cases t with
  | none => rfl
  | some s =>
    show (if (jsTrim s).isEmpty = true then some s else some s) = some s
    split
    · rfl
    · rfl

theorem createdAtMerge_self (t : Option Nat) :
    (if isIsoDateNewer t t then t else jsOrTime t t) = t := by
  split
  · rfl
  · exact jsOrTime_self t

theorem mergeArray_self {t : Option (List String)} (h : mergeArrayStable t) :
    mergeArray t t = t := by
  cases t with
  | none => simp [mergeArray, jsSetOfList]
  | some l =>
    obtain ⟨hne, hnd⟩ := h
    simp only [mergeArray, Option.getD_some]
    rw [jsSetOfList_append_self_of_nodup hnd]
    simp [hne]

/-! ## Entity-level signature lemmas -/

theorem sigConv_withProvenance (r : CanonicalConversation) (j : String) :
    stableSignatureConv (withProvenanceConv r j) = stableSignatureConv r := by
  cases r
  simp [stableSignatureConv, withProvenanceConv]

theorem sigMsg_withProvenance (r : CanonicalMessage) (j : String) :
    stableSignatureMsg (withProvenanceMsg r j) = stableSignatureMsg r := by
  cases r
  simp [stableSignatureMsg, withProvenanceMsg]

theorem sigAtt_withProvenance (r : CanonicalAttachment) (j : String) :
    stableSignatureAtt (withProvenanceAtt r j) = stableSignatureAtt r := by
  cases r
  simp [stableSignatureAtt, withProvenanceAtt]

theorem sigConv_merge_self {p n : CanonicalConversation}
    (h : stableSignatureConv p = stableSignatureConv n) :
    stableSignatureConv (mergeConversation p n) = stableSignatureConv p := by
  cases p
  cases n
  simp only [stableSignatureConv, CanonicalConversation.mk.injEq, and_true,
    true_and] at h
  obtain ⟨h1, h2, h3, h4, h5, h6⟩ := h
  subst h1; subst h2; subst h3; subst h4; subst h5; subst h6
  simp [mergeConversation, stableSignatureConv, mergeText_self,
    createdAtMerge_self]

theorem sigMsg_merge_self {p n : CanonicalMessage}
    (h : stableSignatureMsg p = stableSignatureMsg n)
    (ha : mergeArrayStable p.attachment_ids) :
    stableSignatureMsg (mergeMessage p n) = stableSignatureMsg p := by
  cases p
  cases n
  simp only [stableSignatureMsg, CanonicalMessage.mk.injEq, and_true,
    true_and] at h
  obtain ⟨h1, h2, h3, h4, h5, h6, h7, h8, h9⟩ := h
  subst h1; subst h2; subst h3; subst h4; subst h5; subst h6; subst h7
  subst h8; subst h9
  simp [mergeMessage, stableSignatureMsg, mergeOptional_self, jsOrPlain_self,
    mergeText_self, createdAtMerge_self, mergeArray_self ha]

theorem sigAtt_merge_self {p n : CanonicalAttachment}
    (h : stableSignatureAtt p = stableSignatureAtt n) :
    stableSignatureAtt (mergeAttachment p n) = stableSignatureAtt p := by
  cases p
  cases n
  simp only [stableSignatureAtt, CanonicalAttachment.mk.injEq, and_true,
    true_and] at h
  obtain ⟨h1, h2, h3, h4, h5, h6, h7, h8, h9, h10, h11, h12⟩ := h
  subst h1; subst h2; subst h3; subst h4; subst h5; subst h6; subst h7
  subst h8; subst h9; subst h10; subst h11; subst h12
  simp [mergeAttachment, stableSignatureAtt, mergeOptional_self,
    jsCoalesce_self, jsOrPlain_self]

/-! ## Generic upsert-loop theory

All three upsert functions are instances of `upsertLoop`; the lemmas in
this section are proved once over its parameters. -/

section UpsertTheory

variable {ρ σ : Type} [DecidableEq σ]
variable (requiredOk : ρ → Bool) (getId : ρ → String)
variable (withProv : ρ → String → ρ) (merge : ρ → ρ → ρ) (sig : ρ → σ)

/-- Every loop iteration accounts for exactly one incoming row. -/
theorem upsertStep_statsTotal (jobId : String)
    (st : List (String × ρ) × UpsertStats) (raw : ρ) :
    statsTotal (upsertStep requiredOk getId withProv merge sig jobId st raw).2
      = statsTotal st.2 + 1 := by
  simp only [upsertStep]
  by_cases h : requiredOk raw = true
  · simp only [h, if_true]
    cases hm : mapGet st.1 (getId (withProv raw jobId)) with
    | none => simp [statsTotal]; omega
    | some prev =>
      by_cases hs : sig prev
          = sig (withProv (merge prev (withProv raw jobId)) jobId)
      · simp [hs, statsTotal]; omega
      · simp [hs, statsTotal]; omega
  · simp [h, statsTotal]; omega

theorem foldl_statsTotal (jobId : String) :
    ∀ (incoming : List ρ) (st : List (String × ρ) × UpsertStats),
    statsTotal ((incoming.foldl
        (upsertStep requiredOk getId withProv merge sig jobId) st).2)
      = statsTotal st.2 + incoming.length := by
  intro incoming
  induction incoming with
  | nil => intro st; simp
  | cons r rest ih =>
    intro st
    rw [List.foldl_cons, ih, upsertStep_statsTotal]
    simp only [List.length_cons]
    omega

/-- The statistics of any upsert loop partition the incoming rows. -/
theorem upsertLoop_statsTotal (existing incoming : List ρ) (jobId : String) :
    statsTotal (upsertLoop requiredOk getId withProv merge sig
        existing incoming jobId).2 = incoming.length := by
  simp only [upsertLoop]
  rw [foldl_statsTotal]
  simp [statsTotal]

/-- Running the loop over rows whose ids are fresh and duplicate-free inserts
every row (stamped with provenance) in order and counts them all as `new`. -/
theorem foldl_fresh (jobId : String)
    (hGid : ∀ (r : ρ) (j : String), getId (withProv r j) = getId r) :
    ∀ (rows : List ρ) (idx : List (String × ρ)) (stats : UpsertStats),
    (∀ r ∈ rows, requiredOk r = true) →
    (rows.map getId).Nodup →
    (∀ r ∈ rows, hasKey idx (getId r) = false) →
    rows.foldl (upsertStep requiredOk getId withProv merge sig jobId)
        (idx, stats)
      = (idx ++ rows.map (fun r => (getId r, withProv r jobId)),
         { stats with new := stats.new + rows.length }) := by
  intro rows
  induction rows with
  | nil =>
    intro idx stats _ _ _
    simp
  | cons r rest ih =>
    intro idx stats hok hnd hfresh
    rw [List.foldl_cons]
    have hstep : upsertStep requiredOk getId withProv merge sig jobId
        (idx, stats) r
        = (idx ++ [(getId r, withProv r jobId)],
           { stats with new := stats.new + 1 }) := by
      simp only [upsertStep]
      rw [if_pos (hok r (List.mem_cons_self r rest))]
      rw [hGid r jobId,
        mapGet_eq_none_of_hasKey_eq_false (hfresh r (List.mem_cons_self r rest))]
      rw [mapSet_of_hasKey_eq_false _ (hfresh r (List.mem_cons_self r rest))]
    rw [hstep]
    have hndr : (rest.map getId).Nodup := (List.nodup_cons.mp (by simpa using hnd)).2
    have hhead : getId r ∉ rest.map getId :=
      (List.nodup_cons.mp (by simpa using hnd)).1
    rw [ih (idx ++ [(getId r, withProv r jobId)])
        ({ stats with new := stats.new + 1 })
        (fun r' hr' => hok r' (List.mem_cons_of_mem r hr'))
        hndr
        (fun r' hr' => by
          rw [hasKey_append]
          have h1 : hasKey idx (getId r') = false :=
            hfresh r' (List.mem_cons_of_mem r hr')
          have h2 : hasKey [(getId r, withProv r jobId)] (getId r') = false := by
            have : getId r ≠ getId r' := fun he =>
              hhead (he ▸ List.mem_map_of_mem getId hr')
            simp [hasKey, this]
          simp [h1, h2])]
    simp only [Prod.mk.injEq]
    refine ⟨by simp, ?_⟩
    congr 1
    simp only [List.length_cons]
    omega

/-- Running the loop over duplicate-free rows each of which finds a
signature-equal existing row counts them all as `unchanged`. -/
theorem foldl_unchanged (jobId : String)
    (hGid : ∀ (r : ρ) (j : String), getId (withProv r j) = getId r)
    (hSigProv : ∀ (r : ρ) (j : String), sig (withProv r j) = sig r)
    (good : σ → Prop)
    (hMerge : ∀ p n : ρ, sig p = sig n → good (sig n) →
      sig (merge p n) = sig p) :
    ∀ (rows : List ρ) (idx : List (String × ρ)) (stats : UpsertStats),
    (∀ r ∈ rows, requiredOk r = true) →
    (rows.map getId).Nodup →
    (∀ r ∈ rows, good (sig r)) →
    (∀ r ∈ rows, ∃ p, mapGet idx (getId r) = some p ∧ sig p = sig r) →
    (rows.foldl (upsertStep requiredOk getId withProv merge sig jobId)
        (idx, stats)).2
      = { stats with unchanged := stats.unchanged + rows.length } := by
  intro rows
  induction rows with
  | nil =>
    intro idx stats _ _ _ _
    simp
  | cons r rest ih =>
    intro idx stats hok hnd hgood hfound
    obtain ⟨p, hp, hsig⟩ := hfound r (List.mem_cons_self r rest)
    have hsig2 : sig p
        = sig (withProv (merge p (withProv r jobId)) jobId) := by
      rw [hSigProv]
      rw [hMerge p (withProv r jobId)
        (by rw [hSigProv]; exact hsig)
        (by rw [hSigProv]; exact hgood r (List.mem_cons_self r rest))]
    rw [List.foldl_cons]
    have hstep : upsertStep requiredOk getId withProv merge sig jobId
        (idx, stats) r
        = (mapSet idx (getId r)
             (withProv (merge p (withProv r jobId)) jobId),
           { stats with unchanged := stats.unchanged + 1 }) := by
      simp only [upsertStep]
      rw [if_pos (hok r (List.mem_cons_self r rest))]
      rw [hGid r jobId, hp]
      simp only [← hsig2, eq_self_iff_true, if_true]
    rw [hstep]
    have hndr : (rest.map getId).Nodup := (List.nodup_cons.mp (by simpa using hnd)).2
    have hhead : getId r ∉ rest.map getId :=
      (List.nodup_cons.mp (by simpa using hnd)).1
    rw [ih (mapSet idx (getId r) (withProv (merge p (withProv r jobId)) jobId))
        ({ stats with unchanged := stats.unchanged + 1 })
        (fun r' hr' => hok r' (List.mem_cons_of_mem r hr'))
        hndr
        (fun r' hr' => hgood r' (List.mem_cons_of_mem r hr'))
        (fun r' hr' => by
          obtain ⟨p', hp', hsig'⟩ := hfound r' (List.mem_cons_of_mem r hr')
          refine ⟨p', ?_, hsig'⟩
          rw [mapGet_mapSet_ne _ _ (fun he =>
            hhead (by rw [he]; exact List.mem_map_of_mem getId hr'))]
          exact hp')]
    congr 1
    simp only [List.length_cons]
    omega

/-- `buildIndex` of rows with duplicate-free ids is the literal association
list of `(id, row)` pairs. -/
theorem buildIndex_of_nodup :
    ∀ (l : List ρ) (idx : List (String × ρ)),
    (∀ r ∈ l, hasKey idx (getId r) = false) →
    (l.map getId).Nodup →
    l.foldl (fun m row => mapSet m (getId row) row) idx
      = idx ++ l.map (fun r => (getId r, r)) := by
  intro l
  induction l with
  | nil => intro idx _ _; simp
  | cons r rest ih =>
    intro idx hfresh hnd
    rw [List.foldl_cons,
      mapSet_of_hasKey_eq_false _ (hfresh r (List.mem_cons_self r rest))]
    have hndr : (rest.map getId).Nodup := (List.nodup_cons.mp (by simpa using hnd)).2
    have hhead : getId r ∉ rest.map getId :=
      (List.nodup_cons.mp (by simpa using hnd)).1
    rw [ih (idx ++ [(getId r, r)])
        (fun r' hr' => by
          rw [hasKey_append]
          have h1 : hasKey idx (getId r') = false :=
            hfresh r' (List.mem_cons_of_mem r hr')
          have h2 : hasKey [(getId r, r)] (getId r') = false := by
            have : getId r ≠ getId r' := fun he =>
              hhead (he ▸ List.mem_map_of_mem getId hr')
            simp [hasKey, this]
          simp [h1, h2])
        hndr]
    simp

/-- In an association list built as `(id x, g x)` over rows with
duplicate-free ids, every row's id maps to its `g`-image. -/
theorem mapGet_of_mem_pairs (g : ρ → ρ) :
    ∀ (l : List ρ) (r : ρ), (l.map getId).Nodup → r ∈ l →
    mapGet (l.map (fun x => (getId x, g x))) (getId r) = some (g r) := by
  intro l
  induction l with
  | nil => intro r _ hr; simp at hr
  | cons a rest ih =>
    intro r hnd hr
    have hndr : (rest.map getId).Nodup := (List.nodup_cons.mp (by simpa using hnd)).2
    have hhead : getId a ∉ rest.map getId :=
      (List.nodup_cons.mp (by simpa using hnd)).1
    rcases List.mem_cons.mp hr with hra | hrt
    · subst hra
      simp [mapGet]
    · have hne : getId a ≠ getId r := fun he =>
        hhead (he ▸ List.mem_map_of_mem getId hrt)
      simp only [List.map_cons, mapGet, hne, if_false]
      exact ih r hndr hrt

/-- Re-import idempotence, generically: upserting duplicate-free,
key-complete, merge-stable rows into an empty dataset and then upserting
the same rows again (under any job ids) classifies every row of the second
run as `unchanged`. -/
theorem upsertLoop_reimport
    (hGid : ∀ (r : ρ) (j : String), getId (withProv r j) = getId r)
    (hSigProv : ∀ (r : ρ) (j : String), sig (withProv r j) = sig r)
    (good : σ → Prop)
    (hMerge : ∀ p n : ρ, sig p = sig n → good (sig n) →
      sig (merge p n) = sig p)
    (rows : List ρ) (j1 j2 : String)
    (hok : ∀ r ∈ rows, requiredOk r = true)
    (hnd : (rows.map getId).Nodup)
    (hgood : ∀ r ∈ rows, good (sig r)) :
    (upsertLoop requiredOk getId withProv merge sig
        (upsertLoop requiredOk getId withProv merge sig [] rows j1).1
        rows j2).2
      = ⟨0, 0, (upsertLoop requiredOk getId withProv merge sig [] rows j1).1.length, 0⟩ := by
  have hfirst1 : (upsertLoop requiredOk getId withProv merge sig [] rows j1).1
      = rows.map (fun r => withProv r j1) := by
    simp only [upsertLoop, buildIndex, List.foldl_nil]
    rw [foldl_fresh requiredOk getId withProv merge sig j1 hGid rows []
      ⟨0, 0, 0, 0⟩ hok hnd (fun r _ => rfl)]
    simp [List.map_map, Function.comp]
  have hidsF : (rows.map (fun r => withProv r j1)).map getId = rows.map getId := by
    rw [List.map_map]
    apply List.map_congr_left
    intro a _
    exact hGid a j1
  have hbuild : buildIndex getId (rows.map (fun r => withProv r j1))
      = rows.map (fun x => (getId x, withProv x j1)) := by
    unfold buildIndex
    rw [buildIndex_of_nodup getId (rows.map (fun r => withProv r j1)) []
      (fun r _ => rfl) (by rw [hidsF]; exact hnd)]
    simp only [List.nil_append, List.map_map]
    apply List.map_congr_left
    intro a _
    simp [Function.comp, hGid a j1]
  rw [hfirst1]
  simp only [upsertLoop]
  rw [hbuild]
  rw [foldl_unchanged requiredOk getId withProv merge sig j2 hGid hSigProv
    good hMerge rows _ ⟨0, 0, 0, 0⟩ hok hnd
    hgood
    (fun r hr => ⟨withProv r j1,
      mapGet_of_mem_pairs getId (fun x => withProv x j1) rows r hnd hr,
      hSigProv r j1⟩)]
  simp

/-- Members of `mapSet m k v` are the new pair or members of `m`. -/
theorem mem_mapSet {α : Type} {m : List (String × α)} {k : String} {v : α}
    {q : String × α} (hq : q ∈ mapSet m k v) : q = (k, v) ∨ q ∈ m := by
  unfold mapSet at hq
  by_cases h : hasKey m k
  · rw [if_pos h] at hq
    obtain ⟨p, hp, hpq⟩ := List.mem_map.mp hq
    by_cases hpk : p.1 = k
    · rw [if_pos hpk] at hpq
      exact Or.inl hpq.symm
    · rw [if_neg hpk] at hpq
      exact Or.inr (hpq ▸ hp)
  · rw [if_neg h] at hq
    rcases List.mem_append.mp hq with hq | hq
    · exact Or.inr hq
    · exact Or.inl (List.mem_singleton.mp hq)

/-- One upsert step never loses a key. -/
theorem hasKey_upsertStep (jobId : String)
    (st : List (String × ρ) × UpsertStats) (raw : ρ) {k : String}
    (h : hasKey st.1 k = true) :
    hasKey (upsertStep requiredOk getId withProv merge sig jobId st raw).1 k
      = true := by
  simp only [upsertStep]
  by_cases hr : requiredOk raw = true
  · simp only [hr, if_true]
    cases hm : mapGet st.1 (getId (withProv raw jobId)) with
    | none => simp [hasKey_mapSet, h]
    | some prev =>
      by_cases hs : sig prev
          = sig (withProv (merge prev (withProv raw jobId)) jobId)
      · simp [hs, hasKey_mapSet, h]
      · simp [hs, hasKey_mapSet, h]
  · simpa [hr]

/-- One upsert step never shrinks the index. -/
theorem length_upsertStep (jobId : String)
    (st : List (String × ρ) × UpsertStats) (raw : ρ) :
    st.1.length
      ≤ (upsertStep requiredOk getId withProv merge sig jobId st raw).1.length := by
  simp only [upsertStep]
  by_cases hr : requiredOk raw = true
  · simp only [hr, if_true]
    cases hm : mapGet st.1 (getId (withProv raw jobId)) with
    | none => simpa using length_mapSet _ _ _
    | some prev =>
      by_cases hs : sig prev
          = sig (withProv (merge prev (withProv raw jobId)) jobId)
      · simpa [hs] using length_mapSet _ _ _
      · simpa [hs] using length_mapSet _ _ _
  · simp [hr]

/-- One upsert step leaves the value of every key other than the incoming
row's id untouched. -/
theorem mapGet_upsertStep_ne (jobId : String)
    (hGid : ∀ (r : ρ) (j : String), getId (withProv r j) = getId r)
    (st : List (String × ρ) × UpsertStats) (raw : ρ) {k : String}
    (h : getId raw ≠ k) :
    mapGet (upsertStep requiredOk getId withProv merge sig jobId st raw).1 k
      = mapGet st.1 k := by
  simp only [upsertStep]
  by_cases hr : requiredOk raw = true
  · simp only [hr, if_true]
    cases hm : mapGet st.1 (getId (withProv raw jobId)) with
    | none =>
      simpa using mapGet_mapSet_ne st.1 _ (by rw [hGid]; exact h)
    | some prev =>
      by_cases hs : sig prev
          = sig (withProv (merge prev (withProv raw jobId)) jobId)
      · simpa [hs] using mapGet_mapSet_ne st.1 _ (by rw [hGid]; exact h)
      · simpa [hs] using mapGet_mapSet_ne st.1 _ (by rw [hGid]; exact h)
  · simp [hr]

/-- The whole loop preserves keys. -/
theorem hasKey_foldl (jobId : String) :
    ∀ (rows : List ρ) (st : List (String × ρ) × UpsertStats) {k : String},
    hasKey st.1 k = true →
    hasKey ((rows.foldl (upsertStep requiredOk getId withProv merge sig jobId)
        st).1) k = true := by
  intro rows
  induction rows with
  | nil => intro st k h; simpa
  | cons r rest ih =>
    intro st k h
    rw [List.foldl_cons]
    exact ih _ (hasKey_upsertStep requiredOk getId withProv merge sig jobId st r h)

/-- The whole loop never shrinks the index. -/
theorem length_foldl (jobId : String) :
    ∀ (rows : List ρ) (st : List (String × ρ) × UpsertStats),
    st.1.length
      ≤ ((rows.foldl (upsertStep requiredOk getId withProv merge sig jobId)
          st).1).length := by
  intro rows
  induction rows with
  | nil => intro st; simp
  | cons r rest ih =>
    intro st
    rw [List.foldl_cons]
    exact le_trans (length_upsertStep requiredOk getId withProv merge sig jobId st r) (ih _)

/-- The whole loop leaves keys absent from the incoming ids untouched. -/
theorem mapGet_foldl_not_mem (jobId : String)
    (hGid : ∀ (r : ρ) (j : String), getId (withProv r j) = getId r) :
    ∀ (rows : List ρ) (st : List (String × ρ) × UpsertStats) {k : String},
    k ∉ rows.map getId →
    mapGet ((rows.foldl (upsertStep requiredOk getId withProv merge sig jobId)
        st).1) k = mapGet st.1 k := by
  intro rows
  induction rows with
  | nil => intro st k _; rfl
  | cons r rest ih =>
    intro st k hk
    rw [List.foldl_cons]
    have h1 : k ∉ rest.map getId := fun h => hk (List.mem_cons_of_mem _ h)
    have h2 : getId r ≠ k := fun h => hk (h ▸ List.mem_cons_self _ _)
    rw [ih _ h1, mapGet_upsertStep_ne requiredOk getId withProv merge sig jobId hGid st r h2]

/-- Every stored pair's value carries the pair's key as its id. -/
theorem wfIdx_upsertStep (jobId : String)
    (hGid : ∀ (r : ρ) (j : String), getId (withProv r j) = getId r)
    (hMid : ∀ p n : ρ, getId (merge p n) = getId p)
    (st : List (String × ρ) × UpsertStats) (raw : ρ)
    (hwf : ∀ q ∈ st.1, getId q.2 = q.1) :
    ∀ q ∈ (upsertStep requiredOk getId withProv merge sig jobId st raw).1,
      getId q.2 = q.1 := by
  intro q hq
  simp only [upsertStep] at hq
  by_cases hr : requiredOk raw = true
  · simp only [hr, if_true] at hq
    cases hm : mapGet st.1 (getId (withProv raw jobId)) with
    | none =>
      rw [hm] at hq
      simp only at hq
      rcases mem_mapSet hq with hq | hq
      · rw [hq]
      · exact hwf q hq
    | some prev =>
      rw [hm] at hq
      have hprev : getId prev = getId (withProv raw jobId) :=
        hwf _ (mem_of_mapGet_eq_some hm)
      by_cases hs : sig prev
          = sig (withProv (merge prev (withProv raw jobId)) jobId)
      · simp only [hs, if_true] at hq
        rcases mem_mapSet hq with hq | hq
        · rw [hq]
          simp only
          rw [hGid, hMid, hprev]
        · exact hwf q hq
      · simp only [hs, if_false] at hq
        rcases mem_mapSet hq with hq | hq
        · rw [hq]
          simp only
          rw [hGid, hMid, hprev]
        · exact hwf q hq
  · simp only [hr, if_false, Bool.false_eq_true] at hq
    exact hwf q hq

theorem wfIdx_foldl (jobId : String)
    (hGid : ∀ (r : ρ) (j : String), getId (withProv r j) = getId r)
    (hMid : ∀ p n : ρ, getId (merge p n) = getId p) :
    ∀ (rows : List ρ) (st : List (String × ρ) × UpsertStats),
    (∀ q ∈ st.1, getId q.2 = q.1) →
    ∀ q ∈ (rows.foldl (upsertStep requiredOk getId withProv merge sig jobId)
        st).1, getId q.2 = q.1 := by
  intro rows
  induction rows with
  | nil => intro st h; simp only [List.foldl_nil]; exact h
  | cons r rest ih =>
    intro st h
    rw [List.foldl_cons]
    exact ih _ (wfIdx_upsertStep requiredOk getId withProv merge sig jobId hGid hMid st r h)

/-- `buildIndex` satisfies the key/id invariant. -/
theorem wfIdx_buildIndex :
    ∀ (l : List ρ) (idx : List (String × ρ)),
    (∀ q ∈ idx, getId q.2 = q.1) →
    ∀ q ∈ l.foldl (fun m row => mapSet m (getId row) row) idx,
      getId q.2 = q.1 := by
  intro l
  induction l with
  | nil => intro idx h; simp only [List.foldl_nil]; exact h
  | cons r rest ih =>
    intro idx h
    rw [List.foldl_cons]
    refine ih _ ?_
    intro q hq
    rcases mem_mapSet hq with hq | hq
    · rw [hq]
    · exact h q hq

/-- `buildIndex` keeps a key for every existing row's id. -/
theorem hasKey_buildIndex (r : ρ) :
    ∀ (l : List ρ) (idx : List (String × ρ)),
    r ∈ l ∨ hasKey idx (getId r) = true →
    hasKey (l.foldl (fun m row => mapSet m (getId row) row) idx) (getId r)
      = true := by
  intro l
  induction l with
  | nil =>
    intro idx h
    rcases h with h | h
    · simp at h
    · simpa
  | cons a rest ih =>
    intro idx h
    rw [List.foldl_cons]
    rcases h with h | h
    · rcases List.mem_cons.mp h with h | h
      · subst h
        exact ih _ (Or.inr (by simp [hasKey_mapSet]))
      · exact ih _ (Or.inl h)
    · exact ih _ (Or.inr (by simp [hasKey_mapSet, h]))

/-- Value evolution along a preorder: if merging (then re-stamping) always
relates a previous value to its replacement, every existing key's value
evolves along the relation through the whole loop. -/
theorem mapGet_foldl_rel (jobId : String)
    (hGid : ∀ (r : ρ) (j : String), getId (withProv r j) = getId r)
    (Rel : ρ → ρ → Prop)
    (hRefl : ∀ v, Rel v v)
    (hTrans : ∀ u v w, Rel u v → Rel v w → Rel u w)
    (hMergeRel : ∀ (p n : ρ), Rel p (withProv (merge p n) jobId)) :
    ∀ (rows : List ρ) (st : List (String × ρ) × UpsertStats) (k : String)
      (v : ρ),
    mapGet st.1 k = some v →
    ∃ v', mapGet ((rows.foldl
        (upsertStep requiredOk getId withProv merge sig jobId) st).1) k
          = some v' ∧ Rel v v' := by
  intro rows
  induction rows with
  | nil => intro st k v h; exact ⟨v, by simpa, hRefl v⟩
  | cons r rest ih =>
    intro st k v h
    rw [List.foldl_cons]
    by_cases hk : getId r = k
    · subst hk
      by_cases hr : requiredOk r = true
      · have hstep : (upsertStep requiredOk getId withProv merge sig jobId
            st r).1
            = mapSet st.1 (getId r)
                (withProv (merge v (withProv r jobId)) jobId) := by
          simp only [upsertStep, hr, if_true]
          rw [hGid r jobId, h]
          by_cases hs : sig v
              = sig (withProv (merge v (withProv r jobId)) jobId)
          · simp [hs]
          · simp [hs]
        obtain ⟨v', hv', hrel⟩ := ih (upsertStep requiredOk getId withProv
            merge sig jobId st r) (getId r)
            (withProv (merge v (withProv r jobId)) jobId)
            (by rw [hstep]; exact mapGet_mapSet_self _ _ _)
        exact ⟨v', hv', hTrans _ _ _ (hMergeRel v (withProv r jobId)) hrel⟩
      · have hstep : (upsertStep requiredOk getId withProv merge sig jobId
            st r).1 = st.1 := by
          simp [upsertStep, hr]
        obtain ⟨v', hv', hrel⟩ := ih (upsertStep requiredOk getId withProv
            merge sig jobId st r) (getId r) v (by rw [hstep]; exact h)
        exact ⟨v', hv', hrel⟩
    · obtain ⟨v', hv', hrel⟩ := ih (upsertStep requiredOk getId withProv
          merge sig jobId st r) k v
        (by rw [mapGet_upsertStep_ne requiredOk getId withProv merge sig
          jobId hGid st r hk]; exact h)
      exact ⟨v', hv', hrel⟩

/-- A property that holds of every value the loop stores (because the loop
only ever stores provenance-stamped rows) holds of the final value at a key
once some incoming row with that id passes the required-key check. -/
theorem mapGet_foldl_tagged (jobId : String)
    (hGid : ∀ (r : ρ) (j : String), getId (withProv r j) = getId r)
    (P : ρ → Prop)
    (hPW : ∀ x : ρ, P (withProv x jobId)) :
    ∀ (rows : List ρ) (st : List (String × ρ) × UpsertStats) (k : String),
    (∃ r ∈ rows, requiredOk r = true ∧ getId r = k) ∨
      (∃ v, mapGet st.1 k = some v ∧ P v) →
    ∃ v', mapGet ((rows.foldl
        (upsertStep requiredOk getId withProv merge sig jobId) st).1) k
          = some v' ∧ P v' := by
  intro rows
  induction rows with
  | nil =>
    intro st k h
    rcases h with ⟨r, hr, _⟩ | ⟨v, hv, hp⟩
    · simp at hr
    · exact ⟨v, by simpa, hp⟩
  | cons r rest ih =>
    intro st k h
    rw [List.foldl_cons]
    by_cases hcase : requiredOk r = true ∧ getId r = k
    · obtain ⟨hr, hk⟩ := hcase
      subst hk
      refine ih _ (getId r) (Or.inr ?_)
      simp only [upsertStep, hr, if_true]
      rw [hGid r jobId]
      cases hm : mapGet st.1 (getId r) with
      | none =>
        exact ⟨withProv r jobId, by simpa using mapGet_mapSet_self _ _ _,
          hPW r⟩
      | some prev =>
        by_cases hs : sig prev
            = sig (withProv (merge prev (withProv r jobId)) jobId)
        · exact ⟨withProv (merge prev (withProv r jobId)) jobId,
            by simpa [hs] using mapGet_mapSet_self _ _ _,
            hPW _⟩
        · exact ⟨withProv (merge prev (withProv r jobId)) jobId,
            by simpa [hs] using mapGet_mapSet_self _ _ _,
            hPW _⟩
    · rcases h with ⟨r', hr', hok', hk'⟩ | ⟨v, hv, hp⟩
      · rcases List.mem_cons.mp hr' with he | ht
        · exact absurd ⟨he ▸ hok', he ▸ hk'⟩ hcase
        · exact ih _ k (Or.inl ⟨r', ht, hok', hk'⟩)
      · by_cases hk : getId r = k
        · subst hk
          by_cases hr : requiredOk r = true
          · exact absurd ⟨hr, rfl⟩ hcase
          · refine ih _ (getId r) (Or.inr ⟨v, ?_, hp⟩)
            simp [upsertStep, hr]
            exact hv
        · refine ih _ k (Or.inr ⟨v, ?_, hp⟩)
          rw [mapGet_upsertStep_ne requiredOk getId withProv merge sig jobId
            hGid st r hk]
          exact hv

/-- The frame property of the loop over existing rows with duplicate-free
ids: every existing id survives into the output, the output has at least as
many rows as the existing set, and an existing row whose id is absent from
the incoming ids is returned verbatim. -/
theorem upsertLoop_frame
    (hGid : ∀ (r : ρ) (j : String), getId (withProv r j) = getId r)
    (hMid : ∀ p n : ρ, getId (merge p n) = getId p)
    (existing incoming : List ρ) (jobId : String)
    (hnd : (existing.map getId).Nodup) :
    (∀ r ∈ existing,
      ∃ r' ∈ (upsertLoop requiredOk getId withProv merge sig
          existing incoming jobId).1, getId r' = getId r)
    ∧ existing.length ≤ (upsertLoop requiredOk getId withProv merge sig
        existing incoming jobId).1.length
    ∧ (∀ r ∈ existing, getId r ∉ incoming.map getId →
        r ∈ (upsertLoop requiredOk getId withProv merge sig
          existing incoming jobId).1) := by
  have hidx : buildIndex getId existing
      = existing.map (fun r => (getId r, r)) := by
    unfold buildIndex
    rw [buildIndex_of_nodup getId existing [] (fun r _ => rfl) hnd]
    simp
  refine ⟨?_, ?_, ?_⟩
  · intro r hr
    have hget : mapGet (buildIndex getId existing) (getId r) = some r := by
      rw [hidx]
      exact mapGet_of_mem_pairs getId (fun x => x) existing r hnd hr
    have hhk : hasKey (buildIndex getId existing) (getId r) = true :=
      hasKey_of_mapGet_eq_some hget
    have hhk' := hasKey_foldl requiredOk getId withProv merge sig jobId
      incoming (buildIndex getId existing, ⟨0, 0, 0, 0⟩) hhk
    obtain ⟨v, hv⟩ := exists_mapGet_of_hasKey hhk'
    have hwf := wfIdx_foldl requiredOk getId withProv merge sig jobId
      hGid hMid incoming
      (buildIndex getId existing, ⟨0, 0, 0, 0⟩)
      (fun q hq => wfIdx_buildIndex getId existing []
        (fun q hq' => by simp at hq') q hq)
    refine ⟨v, ?_, ?_⟩
    · simp only [upsertLoop]
      exact List.mem_map_of_mem _ (mem_of_mapGet_eq_some hv)
    · exact hwf _ (mem_of_mapGet_eq_some hv)
  · have h1 : (buildIndex getId existing).length = existing.length := by
      rw [hidx]
      simp
    have h2 := length_foldl requiredOk getId withProv merge sig jobId
      incoming (buildIndex getId existing, ⟨0, 0, 0, 0⟩)
    have h3 : ((buildIndex getId existing,
        (⟨0, 0, 0, 0⟩ : UpsertStats)).1).length = existing.length := h1
    simp only [upsertLoop, List.length_map]
    omega
  · intro r hr hnotin
    have hget : mapGet (buildIndex getId existing) (getId r) = some r := by
      rw [hidx]
      exact mapGet_of_mem_pairs getId (fun x => x) existing r hnd hr
    have hfinal : mapGet ((incoming.foldl
        (upsertStep requiredOk getId withProv merge sig jobId)
        (buildIndex getId existing, ⟨0, 0, 0, 0⟩)).1) (getId r) = some r := by
      rw [mapGet_foldl_not_mem requiredOk getId withProv merge sig jobId
        hGid incoming _ hnotin]
      exact hget
    simp only [upsertLoop]
    exact List.mem_map_of_mem _ (mem_of_mapGet_eq_some hfinal)

/-- The provenance-evolution property of the loop: any existing row with a
duplicate-free-id existing set evolves along `Rel` (which merging preserves)
into the output row with its id, and once an incoming row with that id
passes the required-key check the output row carries the `P` tag that every
provenance stamp of the current job establishes. -/
theorem upsertLoop_provenance
    (hGid : ∀ (r : ρ) (j : String), getId (withProv r j) = getId r)
    (hMid : ∀ p n : ρ, getId (merge p n) = getId p)
    (Rel : ρ → ρ → Prop)
    (hRefl : ∀ v, Rel v v)
    (hTrans : ∀ u v w, Rel u v → Rel v w → Rel u w)
    (jobId : String)
    (hMergeRel : ∀ (p n : ρ), Rel p (withProv (merge p n) jobId))
    (P : ρ → Prop) (hPW : ∀ x : ρ, P (withProv x jobId))
    (existing incoming : List ρ)
    (hnd : (existing.map getId).Nodup) :
    ∀ r ∈ existing,
      ∃ r' ∈ (upsertLoop requiredOk getId withProv merge sig
          existing incoming jobId).1,
        getId r' = getId r ∧ Rel r r'
        ∧ ((∃ n ∈ incoming, requiredOk n = true ∧ getId n = getId r) → P r') := by
  have hidx : buildIndex getId existing
      = existing.map (fun r => (getId r, r)) := by
    unfold buildIndex
    rw [buildIndex_of_nodup getId existing [] (fun r _ => rfl) hnd]
    simp
  intro r hr
  have hget : mapGet (buildIndex getId existing) (getId r) = some r := by
    rw [hidx]
    exact mapGet_of_mem_pairs getId (fun x => x) existing r hnd hr
  obtain ⟨v, hv, hrel⟩ := mapGet_foldl_rel requiredOk getId withProv merge
    sig jobId hGid Rel hRefl hTrans
    hMergeRel incoming (buildIndex getId existing, ⟨0, 0, 0, 0⟩)
    (getId r) r hget
  have hwf := wfIdx_foldl requiredOk getId withProv merge sig jobId
    hGid hMid incoming
    (buildIndex getId existing, ⟨0, 0, 0, 0⟩)
    (fun q hq => wfIdx_buildIndex getId existing []
      (fun q hq' => by simp at hq') q hq)
  refine ⟨v, ?_, hwf _ (mem_of_mapGet_eq_some hv), hrel, ?_⟩
  · simp only [upsertLoop]
    exact List.mem_map_of_mem _ (mem_of_mapGet_eq_some hv)
  · intro hmatch
    obtain ⟨n, hn, hok, hnid⟩ := hmatch
    obtain ⟨v'', hv'', hp⟩ := mapGet_foldl_tagged requiredOk getId withProv
      merge sig jobId hGid P hPW incoming
      (buildIndex getId existing, ⟨0, 0, 0, 0⟩) (getId r)
      (Or.inl ⟨n, hn, hok, hnid⟩)
    have hvv : v = v'' := Option.some.inj (hv.symm.trans hv'')
    rw [hvv]
    exact hp

end UpsertTheory

/-! ## Small string helpers -/

theorem strNotEmpty {s : String} (h : s ≠ "") : (!s.isEmpty) = true := by
  have hf : s.isEmpty = false := by
    rw [Bool.eq_false_iff]
    intro he
    exact h ((String.isEmpty_iff s).mp he)
  simp [hf]

/-! ## Per-entity provenance facts -/

theorem merge_first_seen_conv (p n : CanonicalConversation) :
    (mergeConversation p n).first_seen_job_id = p.first_seen_job_id := rfl

theorem merge_seen_conv (p n : CanonicalConversation) :
    (mergeConversation p n).seen_in_jobs = p.seen_in_jobs := rfl

theorem merge_first_seen_msg (p n : CanonicalMessage) :
    (mergeMessage p n).first_seen_job_id = p.first_seen_job_id := rfl

theorem merge_seen_msg (p n : CanonicalMessage) :
    (mergeMessage p n).seen_in_jobs = p.seen_in_jobs := rfl

theorem merge_first_seen_att (p n : CanonicalAttachment) :
    (mergeAttachment p n).first_seen_job_id = p.first_seen_job_id := rfl

theorem merge_seen_att (p n : CanonicalAttachment) :
    (mergeAttachment p n).seen_in_jobs = p.seen_in_jobs := rfl

theorem withProv_first_seen_conv (r : CanonicalConversation) (j : String)
    (h : strFalsy r.first_seen_job_id = false) :
    (withProvenanceConv r j).first_seen_job_id = r.first_seen_job_id := by
  simp [withProvenanceConv, h]

theorem withProv_first_seen_msg (r : CanonicalMessage) (j : String)
    (h : strFalsy r.first_seen_job_id = false) :
    (withProvenanceMsg r j).first_seen_job_id = r.first_seen_job_id := by
  simp [withProvenanceMsg, h]

theorem withProv_first_seen_att (r : CanonicalAttachment) (j : String)
    (h : strFalsy r.first_seen_job_id = false) :
    (withProvenanceAtt r j).first_seen_job_id = r.first_seen_job_id := by
  simp [withProvenanceAtt, h]

theorem withProv_seen_conv (r : CanonicalConversation) (j : String) :
    (withProvenanceConv r j).seen_in_jobs
      = some (jsSetOfList ((r.seen_in_jobs.getD []) ++ [j])) := rfl

theorem withProv_seen_msg (r : CanonicalMessage) (j : String) :
    (withProvenanceMsg r j).seen_in_jobs
      = some (jsSetOfList ((r.seen_in_jobs.getD []) ++ [j])) := rfl

theorem withProv_seen_att (r : CanonicalAttachment) (j : String) :
    (withProvenanceAtt r j).seen_in_jobs
      = some (jsSetOfList ((r.seen_in_jobs.getD []) ++ [j])) := rfl

/-! ## Claim theorems -/

/-- **C9** (implicit, confirmed): for every call to `upsertConversations`,
`upsertMessages`, or `upsertAttachments`, the returned statistics satisfy
`new + updated + unchanged + failed = length of the incoming row list` —
every incoming row is counted in exactly one bucket. -/
theorem upsert_counter_conservation :
    (∀ (existing incoming : List CanonicalConversation) (jobId : String),
      (upsertConversations existing incoming jobId).2.new
        + (upsertConversations existing incoming jobId).2.updated
        + (upsertConversations existing incoming jobId).2.unchanged
        + (upsertConversations existing incoming jobId).2.failed
        = incoming.length)
    ∧ (∀ (existing incoming : List CanonicalMessage) (jobId : String),
      (upsertMessages existing incoming jobId).2.new
        + (upsertMessages existing incoming jobId).2.updated
        + (upsertMessages existing incoming jobId).2.unchanged
        + (upsertMessages existing incoming jobId).2.failed
        = incoming.length)
    ∧ (∀ (existing incoming : List CanonicalAttachment) (jobId : String),
      (upsertAttachments existing incoming jobId).2.new
        + (upsertAttachments existing incoming jobId).2.updated
        + (upsertAttachments existing incoming jobId).2.unchanged
        + (upsertAttachments existing incoming jobId).2.failed
        = incoming.length) :=
  ⟨fun e i j => upsertLoop_statsTotal _ _ _ _ _ e i j,
   fun e i j => upsertLoop_statsTotal _ _ _ _ _ e i j,
   fun e i j => upsertLoop_statsTotal _ _ _ _ _ e i j⟩

/-- **C1** (corrected): re-import idempotence holds for incoming row lists
with the required key fields whose ids are pairwise distinct (and, for
messages, whose `attachment_ids` are absent or non-empty and duplicate-free):
upserting such rows into an empty dataset and then upserting the same rows
again under another job id yields `new = 0`, `updated = 0`, and `unchanged`
equal to the number of rows produced by the first call. -/
theorem reimport_idempotent :
    (∀ (rows : List CanonicalConversation) (j1 j2 : String), j1 ≠ j2 →
      (∀ r ∈ rows, r.id ≠ "") →
      (rows.map (fun r => r.id)).Nodup →
      (upsertConversations (upsertConversations [] rows j1).1 rows j2).2.new = 0
      ∧ (upsertConversations (upsertConversations [] rows j1).1 rows j2).2.updated = 0
      ∧ (upsertConversations (upsertConversations [] rows j1).1 rows j2).2.unchanged
          = (upsertConversations [] rows j1).1.length)
    ∧ (∀ (rows : List CanonicalMessage) (j1 j2 : String), j1 ≠ j2 →
      (∀ r ∈ rows, r.id ≠ "" ∧ r.conversation_id ≠ "") →
      (rows.map (fun r => r.id)).Nodup →
      (∀ r ∈ rows, mergeArrayStable r.attachment_ids) →
      (upsertMessages (upsertMessages [] rows j1).1 rows j2).2.new = 0
      ∧ (upsertMessages (upsertMessages [] rows j1).1 rows j2).2.updated = 0
      ∧ (upsertMessages (upsertMessages [] rows j1).1 rows j2).2.unchanged
          = (upsertMessages [] rows j1).1.length)
    ∧ (∀ (rows : List CanonicalAttachment) (j1 j2 : String), j1 ≠ j2 →
      (∀ r ∈ rows, r.id ≠ "" ∧ r.message_id ≠ "") →
      (rows.map (fun r => r.id)).Nodup →
      (upsertAttachments (upsertAttachments [] rows j1).1 rows j2).2.new = 0
      ∧ (upsertAttachments (upsertAttachments [] rows j1).1 rows j2).2.updated = 0
      ∧ (upsertAttachments (upsertAttachments [] rows j1).1 rows j2).2.unchanged
          = (upsertAttachments [] rows j1).1.length) := by
  refine ⟨?_, ?_, ?_⟩
  · intro rows j1 j2 _ hkeys hnd
    have h := upsertLoop_reimport
      (fun r : CanonicalConversation => !r.id.isEmpty)
      (fun r => r.id) withProvenanceConv mergeConversation
      stableSignatureConv
      (fun _ _ => rfl) sigConv_withProvenance (fun _ => True)
      (fun _ _ hs _ => sigConv_merge_self hs)
      rows j1 j2
      (fun r hr => strNotEmpty (hkeys r hr))
      hnd
      (fun _ _ => trivial)
    exact ⟨congrArg UpsertStats.new h, congrArg UpsertStats.updated h,
      congrArg UpsertStats.unchanged h⟩
  · intro rows j1 j2 _ hkeys hnd hstable
    have h := upsertLoop_reimport
      (fun r : CanonicalMessage =>
        !r.id.isEmpty && !r.conversation_id.isEmpty)
      (fun r => r.id) withProvenanceMsg mergeMessage stableSignatureMsg
      (fun _ _ => rfl) sigMsg_withProvenance
      (fun s => mergeArrayStable s.attachment_ids)
      (fun p n hs hg => sigMsg_merge_self hs (by
        have hpn := congrArg CanonicalMessage.attachment_ids hs
        simp only [stableSignatureMsg] at hpn
        rw [hpn]
        exact hg))
      rows j1 j2
      (fun r hr => by
        simp [strNotEmpty (hkeys r hr).1, strNotEmpty (hkeys r hr).2])
      hnd
      (fun r hr => hstable r hr)
    exact ⟨congrArg UpsertStats.new h, congrArg UpsertStats.updated h,
      congrArg UpsertStats.unchanged h⟩
  · intro rows j1 j2 _ hkeys hnd
    have h := upsertLoop_reimport
      (fun r : CanonicalAttachment =>
        !r.id.isEmpty && !r.message_id.isEmpty)
      (fun r => r.id) withProvenanceAtt mergeAttachment stableSignatureAtt
      (fun _ _ => rfl) sigAtt_withProvenance (fun _ => True)
      (fun _ _ hs _ => sigAtt_merge_self hs)
      rows j1 j2
      (fun r hr => by
        simp [strNotEmpty (hkeys r hr).1, strNotEmpty (hkeys r hr).2])
      hnd
      (fun _ _ => trivial)
    exact ⟨congrArg UpsertStats.new h, congrArg UpsertStats.updated h,
      congrArg UpsertStats.unchanged h⟩

/-- Witness for `reimport_idempotent` at concrete one-row inputs. -/
theorem reimport_idempotent_witness :
    ((upsertConversations (upsertConversations [] [sampleConversation] "job_a").1
        [sampleConversation] "job_b").2.new = 0
      ∧ (upsertConversations (upsertConversations [] [sampleConversation] "job_a").1
        [sampleConversation] "job_b").2.updated = 0
      ∧ (upsertConversations (upsertConversations [] [sampleConversation] "job_a").1
        [sampleConversation] "job_b").2.unchanged
          = (upsertConversations [] [sampleConversation] "job_a").1.length)
    ∧ ((upsertMessages (upsertMessages [] [sampleMessage] "job_a").1
        [sampleMessage] "job_b").2.new = 0
      ∧ (upsertMessages (upsertMessages [] [sampleMessage] "job_a").1
        [sampleMessage] "job_b").2.updated = 0
      ∧ (upsertMessages (upsertMessages [] [sampleMessage] "job_a").1
        [sampleMessage] "job_b").2.unchanged
          = (upsertMessages [] [sampleMessage] "job_a").1.length)
    ∧ ((upsertAttachments (upsertAttachments [] [sampleAttachment] "job_a").1
        [sampleAttachment] "job_b").2.new = 0
      ∧ (upsertAttachments (upsertAttachments [] [sampleAttachment] "job_a").1
        [sampleAttachment] "job_b").2.updated = 0
      ∧ (upsertAttachments (upsertAttachments [] [sampleAttachment] "job_a").1
        [sampleAttachment] "job_b").2.unchanged
          = (upsertAttachments [] [sampleAttachment] "job_a").1.length) :=
  ⟨reimport_idempotent.1 [sampleConversation] "job_a" "job_b" (by decide)
      (by decide) (by decide),
   reimport_idempotent.2.1 [sampleMessage] "job_a" "job_b" (by decide)
      (by decide) (by decide) (by decide),
   reimport_idempotent.2.2 [sampleAttachment] "job_a" "job_b" (by decide)
      (by decide) (by decide)⟩

/-- Counterexample to **C1** as stated: a message row carrying its required
key fields but an empty `attachment_ids` array is counted as `updated`
(not `unchanged`) on re-import over an empty dataset, because
`mergeArray([], [])` is `undefined` and changes the stable signature; the
second run therefore reports `unchanged = 0 ≠ 1` and `updated = 1 ≠ 0`. -/
theorem reimport_counterexample :
    (∀ r ∈ [{ sampleMessage with attachment_ids := some [] }],
        r.id ≠ "" ∧ r.conversation_id ≠ "")
    ∧ (upsertMessages [] [{ sampleMessage with attachment_ids := some [] }]
        "job_a").1.length = 1
    ∧ (upsertMessages
        (upsertMessages [] [{ sampleMessage with attachment_ids := some [] }]
          "job_a").1
        [{ sampleMessage with attachment_ids := some [] }] "job_b").2.updated = 1
    ∧ (upsertMessages
        (upsertMessages [] [{ sampleMessage with attachment_ids := some [] }]
          "job_a").1
        [{ sampleMessage with attachment_ids := some [] }] "job_b").2.unchanged
        = 0 := by
  decide

/-- **C10** (corrected): for existing row lists with pairwise-distinct ids,
every existing row's id appears in the returned row set, the returned row
count is at least the existing row count, and every existing row whose id
does not occur among the incoming rows is returned completely unchanged. -/
theorem upsert_frame :
    (∀ (existing incoming : List CanonicalConversation) (jobId : String),
      (existing.map (fun r => r.id)).Nodup →
      (∀ r ∈ existing,
        ∃ r' ∈ (upsertConversations existing incoming jobId).1, r'.id = r.id)
      ∧ existing.length ≤ (upsertConversations existing incoming jobId).1.length
      ∧ (∀ r ∈ existing, r.id ∉ incoming.map (fun n => n.id) →
          r ∈ (upsertConversations existing incoming jobId).1))
    ∧ (∀ (existing incoming : List CanonicalMessage) (jobId : String),
      (existing.map (fun r => r.id)).Nodup →
      (∀ r ∈ existing,
        ∃ r' ∈ (upsertMessages existing incoming jobId).1, r'.id = r.id)
      ∧ existing.length ≤ (upsertMessages existing incoming jobId).1.length
      ∧ (∀ r ∈ existing, r.id ∉ incoming.map (fun n => n.id) →
          r ∈ (upsertMessages existing incoming jobId).1))
    ∧ (∀ (existing incoming : List CanonicalAttachment) (jobId : String),
      (existing.map (fun r => r.id)).Nodup →
      (∀ r ∈ existing,
        ∃ r' ∈ (upsertAttachments existing incoming jobId).1, r'.id = r.id)
      ∧ existing.length ≤ (upsertAttachments existing incoming jobId).1.length
      ∧ (∀ r ∈ existing, r.id ∉ incoming.map (fun n => n.id) →
          r ∈ (upsertAttachments existing incoming jobId).1)) := by
  refine ⟨?_, ?_, ?_⟩
  · intro existing incoming jobId hnd
    exact upsertLoop_frame
      (fun r : CanonicalConversation => !r.id.isEmpty)
      (fun r => r.id) withProvenanceConv mergeConversation
      stableSignatureConv
      (fun _ _ => rfl) (fun _ _ => rfl) existing incoming jobId hnd
  · intro existing incoming jobId hnd
    exact upsertLoop_frame
      (fun r : CanonicalMessage =>
        !r.id.isEmpty && !r.conversation_id.isEmpty)
      (fun r => r.id) withProvenanceMsg mergeMessage stableSignatureMsg
      (fun _ _ => rfl) (fun _ _ => rfl) existing incoming jobId hnd
  · intro existing incoming jobId hnd
    exact upsertLoop_frame
      (fun r : CanonicalAttachment =>
        !r.id.isEmpty && !r.message_id.isEmpty)
      (fun r => r.id) withProvenanceAtt mergeAttachment stableSignatureAtt
      (fun _ _ => rfl) (fun _ _ => rfl) existing incoming jobId hnd

/-- Counterexample to **C10** as stated: when the existing row list contains
two rows with the same id, the later one overwrites the earlier in the id
index, so a row is lost and the returned row count shrinks. -/
theorem upsert_frame_counterexample :
    (upsertConversations
        [sampleConversation, { sampleConversation with title := some "T" }]
        [] "job_2").1.length = 1
    ∧ sampleConversation ∉ (upsertConversations
        [sampleConversation, { sampleConversation with title := some "T" }]
        [] "job_2").1 := by
  decide

/-- Witness for `upsert_frame` at concrete inputs. -/
theorem upsert_frame_witness :
    (∀ r ∈ [sampleConversation],
      ∃ r' ∈ (upsertConversations [sampleConversation] [] "job_2").1,
        r'.id = r.id)
    ∧ ([sampleConversation] : List CanonicalConversation).length
        ≤ (upsertConversations [sampleConversation] [] "job_2").1.length
    ∧ (∀ r ∈ [sampleConversation],
        r.id ∉ ([] : List CanonicalConversation).map (fun n => n.id) →
        r ∈ (upsertConversations [sampleConversation] [] "job_2").1) :=
  upsert_frame.1 [sampleConversation] [] "job_2" (by decide)

/-- **C5** (corrected): for existing row lists with pairwise-distinct ids,
the returned row carrying an existing row's id keeps a set (JS-truthy)
`first_seen_job_id` and a superset of `seen_in_jobs`; the current job id is
additionally present in `seen_in_jobs` whenever some incoming row with that
id passes the required-key check (untouched rows do not gain it). -/
theorem provenance_monotone :
    (∀ (existing incoming : List CanonicalConversation) (jobId : String),
      (existing.map (fun r => r.id)).Nodup →
      ∀ r ∈ existing,
        ∃ r' ∈ (upsertConversations existing incoming jobId).1,
          r'.id = r.id
          ∧ (strFalsy r.first_seen_job_id = false →
              r'.first_seen_job_id = r.first_seen_job_id)
          ∧ (∀ s ∈ r.seen_in_jobs.getD [], s ∈ r'.seen_in_jobs.getD [])
          ∧ ((∃ n ∈ incoming, (!n.id.isEmpty) = true ∧ n.id = r.id) →
              jobId ∈ r'.seen_in_jobs.getD []))
    ∧ (∀ (existing incoming : List CanonicalMessage) (jobId : String),
      (existing.map (fun r => r.id)).Nodup →
      ∀ r ∈ existing,
        ∃ r' ∈ (upsertMessages existing incoming jobId).1,
          r'.id = r.id
          ∧ (strFalsy r.first_seen_job_id = false →
              r'.first_seen_job_id = r.first_seen_job_id)
          ∧ (∀ s ∈ r.seen_in_jobs.getD [], s ∈ r'.seen_in_jobs.getD [])
          ∧ ((∃ n ∈ incoming,
                (!n.id.isEmpty && !n.conversation_id.isEmpty) = true
                ∧ n.id = r.id) →
              jobId ∈ r'.seen_in_jobs.getD []))
    ∧ (∀ (existing incoming : List CanonicalAttachment) (jobId : String),
      (existing.map (fun r => r.id)).Nodup →
      ∀ r ∈ existing,
        ∃ r' ∈ (upsertAttachments existing incoming jobId).1,
          r'.id = r.id
          ∧ (strFalsy r.first_seen_job_id = false →
              r'.first_seen_job_id = r.first_seen_job_id)
          ∧ (∀ s ∈ r.seen_in_jobs.getD [], s ∈ r'.seen_in_jobs.getD [])
          ∧ ((∃ n ∈ incoming,
                (!n.id.isEmpty && !n.message_id.isEmpty) = true
                ∧ n.id = r.id) →
              jobId ∈ r'.seen_in_jobs.getD [])) := by
  refine ⟨?_, ?_, ?_⟩
  · intro existing incoming jobId hnd r hr
    obtain ⟨r', hmem, hid, hrel, htag⟩ := upsertLoop_provenance
      (fun n : CanonicalConversation => !n.id.isEmpty)
      (fun r => r.id) withProvenanceConv mergeConversation
      stableSignatureConv
      (fun _ _ => rfl) (fun _ _ => rfl)
      (fun v w =>
        (strFalsy v.first_seen_job_id = false →
          w.first_seen_job_id = v.first_seen_job_id)
        ∧ (∀ s ∈ v.seen_in_jobs.getD [], s ∈ w.seen_in_jobs.getD []))
      (fun v => ⟨fun _ => rfl, fun _ hs => hs⟩)
      (fun u v w h1 h2 =>
        ⟨fun hu => by
          have h1u := h1.1 hu
          have hv : strFalsy v.first_seen_job_id = false := by
            rw [h1u]; exact hu
          rw [h2.1 hv, h1u],
         fun s hs => h2.2 s (h1.2 s hs)⟩)
      jobId
      (fun p n =>
        ⟨fun h => by
          rw [withProv_first_seen_conv _ _
            (by rw [merge_first_seen_conv]; exact h), merge_first_seen_conv],
         fun s hs => by
          rw [withProv_seen_conv]
          simp only [Option.getD_some, merge_seen_conv]
          rw [mem_jsSetOfList]
          exact List.mem_append_left _ hs⟩)
      (fun v => jobId ∈ v.seen_in_jobs.getD [])
      (fun x => by
        simp only [withProv_seen_conv, Option.getD_some]
        exact mem_jsSetOfList_append_right jobId _)
      existing incoming hnd r hr
    exact ⟨r', hmem, hid, hrel.1, hrel.2, htag⟩
  · intro existing incoming jobId hnd r hr
    obtain ⟨r', hmem, hid, hrel, htag⟩ := upsertLoop_provenance
      (fun n : CanonicalMessage =>
        !n.id.isEmpty && !n.conversation_id.isEmpty)
      (fun r => r.id) withProvenanceMsg mergeMessage stableSignatureMsg
      (fun _ _ => rfl) (fun _ _ => rfl)
      (fun v w =>
        (strFalsy v.first_seen_job_id = false →
          w.first_seen_job_id = v.first_seen_job_id)
        ∧ (∀ s ∈ v.seen_in_jobs.getD [], s ∈ w.seen_in_jobs.getD []))
      (fun v => ⟨fun _ => rfl, fun _ hs => hs⟩)
      (fun u v w h1 h2 =>
        ⟨fun hu => by
          have h1u := h1.1 hu
          have hv : strFalsy v.first_seen_job_id = false := by
            rw [h1u]; exact hu
          rw [h2.1 hv, h1u],
         fun s hs => h2.2 s (h1.2 s hs)⟩)
      jobId
      (fun p n =>
        ⟨fun h => by
          rw [withProv_first_seen_msg _ _
            (by rw [merge_first_seen_msg]; exact h), merge_first_seen_msg],
         fun s hs => by
          rw [withProv_seen_msg]
          simp only [Option.getD_some, merge_seen_msg]
          rw [mem_jsSetOfList]
          exact List.mem_append_left _ hs⟩)
      (fun v => jobId ∈ v.seen_in_jobs.getD [])
      (fun x => by
        simp only [withProv_seen_msg, Option.getD_some]
        exact mem_jsSetOfList_append_right jobId _)
      existing incoming hnd r hr
    exact ⟨r', hmem, hid, hrel.1, hrel.2, htag⟩
  · intro existing incoming jobId hnd r hr
    obtain ⟨r', hmem, hid, hrel, htag⟩ := upsertLoop_provenance
      (fun n : CanonicalAttachment =>
        !n.id.isEmpty && !n.message_id.isEmpty)
      (fun r => r.id) withProvenanceAtt mergeAttachment stableSignatureAtt
      (fun _ _ => rfl) (fun _ _ => rfl)
      (fun v w =>
        (strFalsy v.first_seen_job_id = false →
          w.first_seen_job_id = v.first_seen_job_id)
        ∧ (∀ s ∈ v.seen_in_jobs.getD [], s ∈ w.seen_in_jobs.getD []))
      (fun v => ⟨fun _ => rfl, fun _ hs => hs⟩)
      (fun u v w h1 h2 =>
        ⟨fun hu => by
          have h1u := h1.1 hu
          have hv : strFalsy v.first_seen_job_id = false := by
            rw [h1u]; exact hu
          rw [h2.1 hv, h1u],
         fun s hs => h2.2 s (h1.2 s hs)⟩)
      jobId
      (fun p n =>
        ⟨fun h => by
          rw [withProv_first_seen_att _ _
            (by rw [merge_first_seen_att]; exact h), merge_first_seen_att],
         fun s hs => by
          rw [withProv_seen_att]
          simp only [Option.getD_some, merge_seen_att]
          rw [mem_jsSetOfList]
          exact List.mem_append_left _ hs⟩)
      (fun v => jobId ∈ v.seen_in_jobs.getD [])
      (fun x => by
        simp only [withProv_seen_att, Option.getD_some]
        exact mem_jsSetOfList_append_right jobId _)
      existing incoming hnd r hr
    exact ⟨r', hmem, hid, hrel.1, hrel.2, htag⟩

/-- Counterexample to **C5** as stated: an existing row whose id is absent
from the incoming list is returned untouched, so its `seen_in_jobs` does
not contain the current job id. -/
theorem provenance_counterexample :
    (upsertConversations
        [{ sampleConversation with
            first_seen_job_id := some "job_1"
            last_seen_job_id := some "job_1"
            seen_in_jobs := some ["job_1"] }] [] "job_2").1
      = [{ sampleConversation with
            first_seen_job_id := some "job_1"
            last_seen_job_id := some "job_1"
            seen_in_jobs := some ["job_1"] }]
    ∧ "job_2" ∉ (["job_1"] : List String) := by
  decide

/-- Witness for `provenance_monotone` at concrete inputs. -/
theorem provenance_monotone_witness :
    ∀ r ∈ [{ sampleConversation with
        first_seen_job_id := some "job_1"
        seen_in_jobs := some ["job_1"] }],
      ∃ r' ∈ (upsertConversations
          [{ sampleConversation with
              first_seen_job_id := some "job_1"
              seen_in_jobs := some ["job_1"] }]
          [sampleConversation] "job_2").1,
        r'.id = r.id
        ∧ (strFalsy r.first_seen_job_id = false →
            r'.first_seen_job_id = r.first_seen_job_id)
        ∧ (∀ s ∈ r.seen_in_jobs.getD [], s ∈ r'.seen_in_jobs.getD [])
        ∧ ((∃ n ∈ [sampleConversation], (!n.id.isEmpty) = true ∧ n.id = r.id) →
            "job_2" ∈ r'.seen_in_jobs.getD []) :=
  provenance_monotone.1
    [{ sampleConversation with
        first_seen_job_id := some "job_1"
        seen_in_jobs := some ["job_1"] }]
    [sampleConversation] "job_2" (by decide)

/-- **C2** (confirmed): merging an existing message with text `"hi"` with an
incoming message of the same id and text `"hi there"` (required keys
present) stores text `"hi there"` and counts exactly one `updated` row; in
general `mergeText` keeps the non-falsy side and, between two non-falsy
values, one of the two whose length is their maximum. -/
theorem merge_favors_completeness :
    (∀ (p n : CanonicalMessage) (jobId : String),
      p.id = n.id → n.id ≠ "" → n.conversation_id ≠ "" →
      p.text = "hi" → n.text = "hi there" →
      (upsertMessages [p] [n] jobId).1.map (fun r => r.text) = ["hi there"]
      ∧ (upsertMessages [p] [n] jobId).2.updated = 1
      ∧ (upsertMessages [p] [n] jobId).2.new = 0
      ∧ (upsertMessages [p] [n] jobId).2.unchanged = 0)
    ∧ (∀ a b : Option String,
      (strFalsy b = true → mergeText a b = a)
      ∧ (strFalsy a = true → strFalsy b = false → mergeText a b = b)
      ∧ (strFalsy a = false → strFalsy b = false →
          (mergeText a b = a ∨ mergeText a b = b)
          ∧ ((mergeText a b).getD "").length
              = max ((a.getD "").length) ((b.getD "").length))) := by
  constructor
  · intro p n jobId hid hnid hncid hpt hnt
    have hreq : (!n.id.isEmpty && !n.conversation_id.isEmpty) = true := by
      simp [strNotEmpty hnid, strNotEmpty hncid]
    have htext : (withProvenanceMsg
        (mergeMessage p (withProvenanceMsg n jobId)) jobId).text
        = "hi there" := by
      show ((mergeText (some p.text) (some n.text)).getD "") = "hi there"
      rw [hpt, hnt]
      decide
    have hsigne : ¬(stableSignatureMsg p = stableSignatureMsg
        (withProvenanceMsg (mergeMessage p (withProvenanceMsg n jobId))
          jobId)) := by
      intro he
      have h2 := congrArg CanonicalMessage.text he
      simp only [stableSignatureMsg] at h2
      rw [hpt, htext] at h2
      exact absurd h2 (by decide)
    have hget : mapGet [(p.id, p)] ((withProvenanceMsg n jobId).id)
        = some p := by
      show mapGet [(p.id, p)] n.id = some p
      simp [mapGet, hid]
    have hbuild : buildIndex (fun r : CanonicalMessage => r.id) [p]
        = [(p.id, p)] := by
      simp [buildIndex, mapSet, hasKey]
    simp only [upsertMessages, upsertLoop]
    rw [hbuild]
    simp only [List.foldl_cons, List.foldl_nil, upsertStep, hreq, if_true,
      hget, if_neg hsigne]
    rw [mapSet_singleton_self _ _ _
      (hid : (p.id, p).1 = (withProvenanceMsg n jobId).id)]
    simp [htext]
  · intro a b
    refine ⟨?_, ?_, ?_⟩
    · intro hb
      simp [mergeText, hb]
    · intro ha hb
      simp [mergeText, ha, hb]
    · intro ha hb
      have hres : mergeText a b
          = (if (a.getD "").length ≤ (b.getD "").length then b else a) := by
        simp [mergeText, ha, hb]
      by_cases hle : (a.getD "").length ≤ (b.getD "").length
      · rw [hres, if_pos hle]
        exact ⟨Or.inr rfl, by rw [Nat.max_eq_right hle]⟩
      · rw [hres, if_neg hle]
        exact ⟨Or.inl rfl, by rw [Nat.max_eq_left (Nat.le_of_not_le hle)]⟩

/-- Witness for `merge_favors_completeness` at concrete rows. -/
theorem merge_favors_completeness_witness :
    (upsertMessages [{ sampleMessage with text := "hi" }]
        [{ sampleMessage with
            text := "hi there"
            source_job_id := "job_2" }] "job_2").1.map (fun r => r.text)
      = ["hi there"]
    ∧ (upsertMessages [{ sampleMessage with text := "hi" }]
        [{ sampleMessage with
            text := "hi there"
            source_job_id := "job_2" }] "job_2").2.updated = 1
    ∧ (upsertMessages [{ sampleMessage with text := "hi" }]
        [{ sampleMessage with
            text := "hi there"
            source_job_id := "job_2" }] "job_2").2.new = 0
    ∧ (upsertMessages [{ sampleMessage with text := "hi" }]
        [{ sampleMessage with
            text := "hi there"
            source_job_id := "job_2" }] "job_2").2.unchanged = 0 :=
  merge_favors_completeness.1 { sampleMessage with text := "hi" }
    { sampleMessage with
        text := "hi there"
        source_job_id := "job_2" } "job_2" rfl (by decide) (by decide)
    rfl rfl

/-- **C3** (corrected): when both rows carry `created_at`, the merged row's
`created_at` is the *later* of the two values — exactly like `updated_at` —
so "first observation wins" does not hold; both timestamp fields prefer the
most recent observation. -/
theorem timestamp_merge_later_wins :
    (∀ (p n : CanonicalConversation) (a b : Nat),
      p.created_at = some a → n.created_at = some b →
      (mergeConversation p n).created_at = some (max a b))
    ∧ (∀ (p n : CanonicalConversation) (a b : Nat),
      p.updated_at = some a → n.updated_at = some b →
      (mergeConversation p n).updated_at = some (max a b))
    ∧ (∀ (p n : CanonicalMessage) (a b : Nat),
      p.created_at = some a → n.created_at = some b →
      (mergeMessage p n).created_at = some (max a b)) := by
  refine ⟨?_, ?_, ?_⟩
  · intro p n a b hp hn
    simp only [mergeConversation, hp, hn, isIsoDateNewer, jsOrTime]
    by_cases hab : b < a
    · simp [hab, Nat.max_eq_left (Nat.le_of_lt hab)]
    · simp [hab, Nat.max_eq_right (Nat.le_of_not_lt hab)]
  · intro p n a b hp hn
    simp only [mergeConversation, hp, hn, isIsoDateNewer]
    by_cases hab : a < b
    · simp [hab, Nat.max_eq_right (Nat.le_of_lt hab)]
    · simp [hab, Nat.max_eq_left (Nat.le_of_not_lt hab)]
  · intro p n a b hp hn
    simp only [mergeMessage, hp, hn, isIsoDateNewer, jsOrTime]
    by_cases hab : b < a
    · simp [hab, Nat.max_eq_left (Nat.le_of_lt hab)]
    · simp [hab, Nat.max_eq_right (Nat.le_of_not_lt hab)]

/-- Counterexample to **C3** as stated: with previous `created_at = 100` and
incoming `created_at = 200`, the merged conversation keeps `200` (the later
value), not the earlier `100` the claim requires. -/
theorem timestamp_merge_counterexample :
    (mergeConversation
        { sampleConversation with created_at := some 100 }
        { sampleConversation with
            created_at := some 200
            source_job_id := "job_2" }).created_at = some 200
    ∧ some (200 : Nat) ≠ some (100 : Nat) := by
  decide

/-- Witness for `timestamp_merge_later_wins` at concrete rows. -/
theorem timestamp_merge_witness :
    (mergeConversation
        { sampleConversation with created_at := some 100 }
        { sampleConversation with
            created_at := some 200
            source_job_id := "job_2" }).created_at = some (max 100 200) :=
  timestamp_merge_later_wins.1
    { sampleConversation with created_at := some 100 }
    { sampleConversation with
        created_at := some 200
        source_job_id := "job_2" } 100 200 rfl rfl

/-- **C4** (corrected): the attachment status merge is "incoming overrides
whenever non-empty", so an incoming row whose payload lacked a local file
reference and therefore carries status `"missing"` *does* regress a
previously `"embedded"` attachment: `upsertAttachments` stores status
`"missing"`. -/
theorem attachment_status_regresses :
    (∀ (p n : CanonicalAttachment) (jobId : String),
      p.id = n.id → n.id ≠ "" → n.message_id ≠ "" →
      p.status = "embedded" → n.status = "missing" →
      (upsertAttachments [p] [n] jobId).1.map (fun r => r.status)
        = ["missing"])
    ∧ (∀ p n : CanonicalAttachment, n.status ≠ "" →
      (mergeAttachment p n).status = n.status) := by
  constructor
  · intro p n jobId hid hnid hnmid hps hns
    have hreq : (!n.id.isEmpty && !n.message_id.isEmpty) = true := by
      simp [strNotEmpty hnid, strNotEmpty hnmid]
    have hstatus : (withProvenanceAtt
        (mergeAttachment p (withProvenanceAtt n jobId)) jobId).status
        = "missing" := by
      show jsOrPlain n.status p.status = "missing"
      rw [hns, hps]
      decide
    have hget : mapGet [(p.id, p)] ((withProvenanceAtt n jobId).id)
        = some p := by
      show mapGet [(p.id, p)] n.id = some p
      simp [mapGet, hid]
    have hbuild : buildIndex (fun r : CanonicalAttachment => r.id) [p]
        = [(p.id, p)] := by
      simp [buildIndex, mapSet, hasKey]
    have hsetshape : mapSet [(p.id, p)] ((withProvenanceAtt n jobId).id)
        (withProvenanceAtt (mergeAttachment p (withProvenanceAtt n jobId))
          jobId)
        = [(((withProvenanceAtt n jobId).id),
            withProvenanceAtt (mergeAttachment p (withProvenanceAtt n jobId))
              jobId)] :=
      mapSet_singleton_self _ _ _
        (hid : (p.id, p).1 = (withProvenanceAtt n jobId).id)
    simp only [upsertAttachments, upsertLoop]
    rw [hbuild]
    simp only [List.foldl_cons, List.foldl_nil, upsertStep, hreq, if_true,
      hget]
    by_cases hs : stableSignatureAtt p = stableSignatureAtt
        (withProvenanceAtt (mergeAttachment p (withProvenanceAtt n jobId))
          jobId)
    · rw [if_pos hs, hsetshape]
      simp [hstatus]
    · rw [if_neg hs, hsetshape]
      simp [hstatus]
  · intro p n hns
    show jsOrPlain n.status p.status = n.status
    unfold jsOrPlain
    rw [if_neg]
    intro he
    exact hns ((String.isEmpty_iff n.status).mp he)

/-- Counterexample to **C4** as stated: a previously `embedded` attachment
merged with an incoming row of the same id whose status is `missing` (no
local file reference) comes back with status `"missing"`, not
`"embedded"`. -/
theorem attachment_status_counterexample :
    (upsertAttachments
        [{ sampleAttachment with
            storage := "blob"
            status := "embedded"
            blob_sha256 := some "abc" }]
        [sampleAttachment] "job_2").1.map (fun r => r.status)
      = ["missing"]
    ∧ ("missing" : String) ≠ "embedded" := by
  decide

/-- Witness for `attachment_status_regresses` at concrete rows. -/
theorem attachment_status_witness :
    (upsertAttachments
        [{ sampleAttachment with
            storage := "blob"
            status := "embedded"
            blob_sha256 := some "abc" }]
        [{ sampleAttachment with source_job_id := "job_2" }]
        "job_2").1.map (fun r => r.status) = ["missing"] :=
  attachment_status_regresses.1
    { sampleAttachment with
        storage := "blob"
        status := "embedded"
        blob_sha256 := some "abc" }
    { sampleAttachment with source_job_id := "job_2" } "job_2"
    rfl (by decide) (by decide) rfl rfl

/-! ## Job lifecycle helpers -/

theorem runStages_shape :
    ∀ (sts : List JobStatus) (os : List (Except String Unit)),
    ∃ k, k ≤ sts.length ∧
      ((runStages (sts.zip os)).map (fun pr => pr.status) = sts.take k
       ∨ (k < sts.length
          ∧ (runStages (sts.zip os)).map (fun pr => pr.status)
              = sts.take k ++ [JobStatus.failed])) := by
  intro sts
  induction sts with
  | nil =>
    intro os
    exact ⟨0, le_rfl, Or.inl (by cases os <;> rfl)⟩
  | cons st sts ih =>
    intro os
    cases os with
    | nil => exact ⟨0, Nat.zero_le _, Or.inl rfl⟩
    | cons o os =>
      cases o with
      | ok u =>
        obtain ⟨k, hk, hcase⟩ := ih os
        refine ⟨k + 1, Nat.succ_le_succ hk, ?_⟩
        rcases hcase with h | ⟨hlt, h⟩
        · left
          show (PersistedRun.mk st [] :: runStages (sts.zip os)).map
            (fun pr => pr.status) = (st :: sts).take (k + 1)
          rw [List.map_cons, h]
          rfl
        · right
          refine ⟨Nat.succ_lt_succ hlt, ?_⟩
          show (PersistedRun.mk st [] :: runStages (sts.zip os)).map
            (fun pr => pr.status)
            = (st :: sts).take (k + 1) ++ [JobStatus.failed]
          rw [List.map_cons, h]
          rfl
      | error e =>
        exact ⟨0, Nat.zero_le _, Or.inr ⟨Nat.succ_pos _, rfl⟩⟩

theorem runStages_failed_errors :
    ∀ (l : List (JobStatus × Except String Unit)),
    (∀ q ∈ l, q.1 ≠ JobStatus.failed) →
    ∀ pr ∈ runStages l, pr.status = JobStatus.failed → pr.errors ≠ [] := by
  intro l
  induction l with
  | nil => intro _ pr h; simp [runStages] at h
  | cons q rest ih =>
    intro hnf pr h hst
    obtain ⟨st, o⟩ := q
    cases o with
    | ok u =>
      simp only [runStages] at h
      rcases List.mem_cons.mp h with he | ht
      · exfalso
        have : st = JobStatus.failed := by
          rw [← hst, he]
        exact hnf (st, Except.ok u) (List.mem_cons_self _ _) this
      · exact ih (fun q' hq' => hnf q' (List.mem_cons_of_mem _ hq')) pr ht hst
    | error e =>
      simp only [runStages] at h
      rcases List.mem_cons.mp h with he | ht
      · rw [he]
        simp
      · simp at ht

/-- **C6** (confirmed): the sequence of statuses persisted by one
`runImport` execution is a prefix of the seven-stage chain, optionally
capped by a single final `FAILED` entry (reached before `NORMALIZED`), and
every persisted `FAILED` record carries a non-empty errors list; nothing is
persisted after `FAILED`. -/
theorem job_lifecycle :
    ∀ outcomes : List (Except String Unit),
      (∃ k, k ≤ statusChain.length ∧
        ((runImportStatusTrace outcomes).map (fun pr => pr.status)
            = statusChain.take k
          ∨ (k < statusChain.length
            ∧ (runImportStatusTrace outcomes).map (fun pr => pr.status)
                = statusChain.take k ++ [JobStatus.failed])))
      ∧ (∀ pr ∈ runImportStatusTrace outcomes,
          pr.status = JobStatus.failed → pr.errors ≠ []) := by
  intro outcomes
  constructor
  · obtain ⟨k, hk, hcase⟩ := runStages_shape stageStatuses outcomes
    have hlen : stageStatuses.length = 6 := rfl
    have hlen' : statusChain.length = 7 := rfl
    refine ⟨k + 1, by omega, ?_⟩
    rcases hcase with h | ⟨hlt, h⟩
    · left
      show (⟨JobStatus.packageSelected, []⟩ :: runStages (stageStatuses.zip
          outcomes)).map (fun pr => pr.status) = statusChain.take (k + 1)
      rw [List.map_cons, h]
      rfl
    · right
      refine ⟨by omega, ?_⟩
      show (⟨JobStatus.packageSelected, []⟩ :: runStages (stageStatuses.zip
          outcomes)).map (fun pr => pr.status)
          = statusChain.take (k + 1) ++ [JobStatus.failed]
      rw [List.map_cons, h]
      rfl
  · intro pr hpr hst
    rcases List.mem_cons.mp hpr with he | ht
    · rw [he] at hst
      exact absurd hst (by decide)
    · refine runStages_failed_errors (stageStatuses.zip outcomes) ?_ pr ht hst
      intro q hq
      have hq1 : q.1 ∈ stageStatuses := by
        obtain ⟨a, b⟩ := q
        exact (List.of_mem_zip hq).1
      intro hfail
      rw [hfail] at hq1
      exact absurd hq1 (by decide)

/-- Witness for `job_lifecycle`: an execution whose third stage action
(provider parsing) fails. -/
theorem job_lifecycle_witness :
    (∃ k, k ≤ statusChain.length ∧
      ((runImportStatusTrace [Except.ok (), Except.ok (),
          Except.error "boom"]).map (fun pr => pr.status)
          = statusChain.take k
        ∨ (k < statusChain.length
          ∧ (runImportStatusTrace [Except.ok (), Except.ok (),
              Except.error "boom"]).map (fun pr => pr.status)
              = statusChain.take k ++ [JobStatus.failed])))
    ∧ (∀ pr ∈ runImportStatusTrace [Except.ok (), Except.ok (),
          Except.error "boom"],
        pr.status = JobStatus.failed → pr.errors ≠ []) :=
  job_lifecycle [Except.ok (), Except.ok (), Except.error "boom"]

/-- **C7** (corrected): the extractors default the role to `"unknown"` when
every role-bearing field is falsy, and the Gemini/Cursor normalizers map
recognized synonyms into the vocabulary, but every unrecognized non-empty
role value passes through verbatim (after trim/lower-casing for
Gemini/Cursor, literally for Claude/ChatGPT), so the emitted role is not
always in `user/assistant/system/unknown`. -/
theorem role_normalization_amended :
    (∀ (m : RoleSourceFields) (s : String), m.role = some s → s ≠ "" →
      claudeMessageRole m = s)
    ∧ (∀ m : RoleSourceFields,
        strFalsy m.role = true → strFalsy m.sender = true →
        strFalsy m.authorRole = true → strFalsy m.authorType = true →
        strFalsy m.fromField = true → claudeMessageRole m = "unknown")
    ∧ (∀ s : String,
        chatgptMessageRole (some s) = (if s.isEmpty then "unknown" else s))
    ∧ (∀ v : String, normalizeGeminiRole v ∈ normalizedRoleVocab
        ∨ normalizeGeminiRole v = jsToLower (jsTrim v))
    ∧ (∀ v : String, normalizeCursorRole v ∈ normalizedRoleVocab
        ∨ normalizeCursorRole v = jsToLower (jsTrim v)) := by
  refine ⟨?_, ?_, ?_, ?_, ?_⟩
  · intro m s hs hne
    have hf : s.isEmpty = false := by
      rw [Bool.eq_false_iff]
      intro he
      exact hne ((String.isEmpty_iff s).mp he)
    simp [claudeMessageRole, firstTruthy, hs, strFalsy, hf]
  · intro m h1 h2 h3 h4 h5
    simp [claudeMessageRole, firstTruthy, h1, h2, h3, h4, h5]
  · intro s
    by_cases h : s.isEmpty
    · simp [chatgptMessageRole, firstTruthy, strFalsy, h]
    · simp [chatgptMessageRole, firstTruthy, strFalsy, h]
  · intro v
    simp only [normalizeGeminiRole]
    split
    · left; decide
    · split
      · left; decide
      · split
        · left; decide
        · split
          · left; decide
          · right; rfl
  · intro v
    simp only [normalizeCursorRole]
    split
    · left; decide
    · split
      · left; decide
      · split
        · left; decide
        · split
          · left; decide
          · right; rfl

/-- Counterexample to **C7** as stated: a Claude message record whose raw
role is `"tool"` is emitted with role `"tool"`, which is outside the
normalized vocabulary (the same happens for ChatGPT, and `"tool"` also
passes through the Gemini and Cursor normalizers). -/
theorem role_normalization_counterexample :
    claudeMessageRole ⟨some "tool", none, none, none, none⟩ = "tool"
    ∧ chatgptMessageRole (some "tool") = "tool"
    ∧ normalizeGeminiRole "tool" = "tool"
    ∧ normalizeCursorRole "tool" = "tool"
    ∧ "tool" ∉ normalizedRoleVocab := by
  decide

/-- Witness for `role_normalization_amended` at concrete inputs. -/
theorem role_normalization_witness :
    claudeMessageRole ⟨some "assistant", none, none, none, none⟩
      = "assistant"
    ∧ claudeMessageRole ⟨none, none, none, none, none⟩ = "unknown" :=
  ⟨role_normalization_amended.1 ⟨some "assistant", none, none, none, none⟩
      "assistant" rfl (by decide),
   role_normalization_amended.2.1 ⟨none, none, none, none, none⟩
      rfl rfl rfl rfl rfl⟩

/-- **C8** (corrected): the generated id is
`mb_<provider>_<prefix>_<sanitize(rawId)>` — an `mb_`-prefixed,
underscore-separated format, not `provider:prefix:sanitize(rawId)` — when
the raw id has a non-empty trim, and
`mb_<provider>_<prefix>_<hash(fallbackSeed or "missing") truncated to 20>`
otherwise; sanitization maps every character outside `[A-Za-z0-9_-]` to
`_` and leaves already-clean ids unchanged (the function is pure, so two
calls with the same inputs trivially agree). -/
theorem canonical_id_amended :
    (∀ (hash : String → String) (idKind provider r : String)
        (fb : Option String), ¬(jsTrim r).isEmpty = true →
      canonicalId hash idKind provider (some r) fb
        = "mb_" ++ provider ++ "_" ++ idKind ++ "_" ++ safe r)
    ∧ (∀ (s : String), ∀ c ∈ (safe s).data,
        (c.isAlphanum || c = '_' || c = '-') = true)
    ∧ (∀ (s : String),
        (∀ c ∈ s.data, (c.isAlphanum || c = '_' || c = '-') = true) →
        safe s = s)
    ∧ (∀ (hash : String → String) (idKind provider : String)
        (fb : Option String),
      canonicalId hash idKind provider none fb
        = "mb_" ++ provider ++ "_" ++ idKind ++ "_"
          ++ (hash (if strFalsy fb then "missing" else fb.getD "")).take 20) := by
  refine ⟨?_, ?_, ?_, ?_⟩
  · intro hash idKind provider r fb htrim
    have hne : ¬r.isEmpty = true := by
      intro he
      apply htrim
      rw [(String.isEmpty_iff r).mp he]
      rfl
    simp [canonicalId, hne, htrim]
  · intro s c hc
    simp only [safe] at hc
    obtain ⟨x, _, hfx⟩ := List.mem_map.mp hc
    by_cases h : (x.isAlphanum || x = '_' || x = '-') = true
    · rw [if_pos h] at hfx
      subst hfx
      exact h
    · rw [if_neg h] at hfx
      subst hfx
      decide
  · intro s hs
    show String.mk (s.data.map _) = s
    rw [List.map_congr_left (fun c hc => if_pos (hs c hc))]
    simp
  · intro hash idKind provider fb
    simp [canonicalId]

/-- Counterexample to **C8** as stated: with prefix `cnv`, provider
`claude` and raw id `abc`, the generated id is `mb_claude_cnv_abc`, not
`claude:cnv:abc`. -/
theorem canonical_id_counterexample :
    canonicalId (fun s => s) "cnv" "claude" (some "abc") none
      = "mb_claude_cnv_abc"
    ∧ ("mb_claude_cnv_abc" : String) ≠ "claude:cnv:abc" := by
  decide

/-- Witness for `canonical_id_amended` at concrete inputs. -/
theorem canonical_id_witness :
    canonicalId (fun s => s) "cnv" "claude" (some "a b!") none
      = "mb_" ++ "claude" ++ "_" ++ "cnv" ++ "_" ++ safe "a b!" :=
  canonical_id_amended.1 (fun s => s) "cnv" "claude" "a b!" none (by decide)

end Minglebot
